import Mathlib

/-!
Verification development for the brunzo repository: a shallow embedding of
the `.bru` document parser (src/parser.ts) and of the schema restructuring
algorithm (the two snapshots in src/generator.ts), together with theorems
settling the frozen claims about them.

Texts are modelled as `List Char`.  JavaScript regular-expression searches
used by the source are modelled by explicit left-to-right scanners that give
the same match semantics for the concrete patterns the source uses.
-/

namespace Brunzo

/-- Texts are lists of characters. -/
abbrev Str := List Char

/-- The opening brace character (written via its code point). -/
def obc : Char := '\x7b'

/-- The closing brace character (written via its code point). -/
def cbc : Char := '\x7d'

/-- Models the JavaScript `\s` whitespace class for the ASCII range
(space, tab, newline, carriage return, vertical tab, form feed). -/
def isWs (c : Char) : Bool :=
  c = ' ' || c = '\t' || c = '\n' || c = '\r' || c = '\x0b' || c = '\x0c'

/-- Length of the maximal whitespace prefix (what a greedy `\s*` consumes). -/
def wsCount (s : Str) : Nat := (s.takeWhile isWs).length

/-- Models `String.prototype.trim`: strip whitespace from both ends. -/
def trim (s : Str) : Str :=
  ((s.dropWhile isWs).reverse.dropWhile isWs).reverse

/-- Models `String.prototype.split('\n')`. -/
def splitLines : Str → List Str
  | [] => [[]]
  | c :: rest =>
    if c = '\n' then [] :: splitLines rest
    else
      match splitLines rest with
      | [] => [[c]]
      | l :: ls => (c :: l) :: ls

/-- Models `String.prototype.indexOf` for a single character
(`none` plays the role of the JavaScript result `-1`). -/
def idxOf (c : Char) : Str → Option Nat
  | [] => none
  | a :: rest => if a = c then some 0 else (idxOf c rest).map (· + 1)

/-- Models `parseInt` on a string of decimal digits. -/
def digitsToNat (ds : Str) : Nat :=
  ds.foldl (fun n c => n * 10 + (c.toNat - 48)) 0

/-- Does the pattern `name` `\s*` `:?` `\s*` `{` (the regex built by
`extractBlockContent`) match at the head of `s`?  If so, return the index of
its `{`. -/
def patBrace (name s : Str) : Option Nat :=
  if name.isPrefixOf s then
    let r1 := s.drop name.length
    let w1 := wsCount r1
    match r1.drop w1 with
    | c :: r3 =>
      if c = obc then some (name.length + w1)
      else if c = ':' then
        let w2 := wsCount r3
        match r3.drop w2 with
        | c2 :: _ => if c2 = obc then some (name.length + w1 + 1 + w2) else none
        | [] => none
      else none
    | [] => none
  else none

/-- Leftmost index at which `patBrace name` matches, i.e. `match.index` of
`content.match(new RegExp(escapedName + "\\s*:?\\s*\\{"))`. -/
def findPatAux (name : Str) : Str → Nat → Option Nat
  | [], _ => none
  | s@(_ :: rest), i =>
    match patBrace name s with
    | some _ => some i
    | none => findPatAux name rest (i + 1)

/-- Depth-counting scan of `extractBlockContent`/`stripBlocks`: starting at
depth `d`, consume characters until the depth returns to zero; return how
many characters were consumed (`none` when the braces never balance). -/
def scanBraces : Str → Nat → Option Nat
  | _, 0 => some 0
  | [], _ + 1 => none
  | c :: rest, d + 1 =>
    let d' := if c = obc then d + 2 else if c = cbc then d else d + 1
    (scanBraces rest d').map Nat.succ

/-- Embedding of `extractBlockContent` (src/parser.ts): locate the first
block header, take the first `{` from the match position on, and return the
text strictly between it and its balancing `}`. -/
def extractBlockContent (content name : Str) : Option Str :=
  match findPatAux name content 0 with
  | none => none
  | some i =>
    match idxOf obc (content.drop i) with
    | none => none
    | some k =>
      match scanBraces (content.drop (i + k + 1)) 1 with
      | none => none
      | some m => some ((content.drop (i + k + 1)).take (m - 1))

/-- One iteration of the `stripBlocks` loop (src/parser.ts): remove the first
balanced block, or report `none` when the loop would break. -/
def stripStep (name content : Str) : Option Str :=
  match findPatAux name content 0 with
  | none => none
  | some i =>
    match idxOf obc (content.drop i) with
    | none => none
    | some k =>
      match scanBraces (content.drop (i + k + 1)) 1 with
      | none => none
      | some m => some (content.take i ++ content.drop (i + k + 1 + m))

/-- The `while (true)` loop of `stripBlocks`, with explicit fuel. -/
def stripBlocksAux (name : Str) : Nat → Str → Str
  | 0, content => content
  | fuel + 1, content =>
    match stripStep name content with
    | none => content
    | some c' => stripBlocksAux name fuel c'

/-- Embedding of `stripBlocks` (src/parser.ts).  Each successful iteration
strictly shortens the text, so `length + 1` units of fuel always suffice
(theorem `stripBlocks_terminates`). -/
def stripBlocks (name content : Str) : Str :=
  stripBlocksAux name (content.length + 1) content

/-! ## Key-value block parser (`parseKvContent`, src/parser.ts) -/

/-- Is `c` an ASCII hexadecimal digit? -/
def isHexDigit (c : Char) : Bool :=
  c.isDigit || (decide ('a' ≤ c) && decide (c ≤ 'f')) || (decide ('A' ≤ c) && decide (c ≤ 'F'))

/-- May the exponent part of a JavaScript decimal literal look like `s`
(`s` must be empty or an entire well-formed exponent)? -/
def expOk : Str → Bool
  | [] => true
  | c :: r =>
    if c = 'e' || c = 'E' then
      let r2 := match r with
        | s :: t => if s = '+' || s = '-' then t else s :: t
        | [] => []
      !r2.isEmpty && r2.all Char.isDigit
    else false

/-- Decimal body of a JavaScript numeric string (after the optional sign):
`digits ['.' digits*] [exp]` or `'.' digits+ [exp]`. -/
def decBody (r : Str) : Bool :=
  let d1 := r.takeWhile Char.isDigit
  let r1 := r.drop d1.length
  if d1.isEmpty then
    match r1 with
    | '.' :: r2 =>
      let d2 := r2.takeWhile Char.isDigit
      !d2.isEmpty && expOk (r2.drop d2.length)
    | _ => false
  else
    match r1 with
    | '.' :: r2 => expOk (r2.dropWhile Char.isDigit)
    | _ => expOk r1

/-- Models the JavaScript test `!isNaN(Number(v))` on an already-trimmed
string `v`: the string-to-number grammar accepts the empty string, unsigned
radix literals (`0x…`, `0o…`, `0b…`), and optionally signed decimal
literals or `Infinity`. -/
def jsIsNumeric (v : Str) : Bool :=
  if v.isEmpty then true
  else if ['0', 'x'].isPrefixOf v || ['0', 'X'].isPrefixOf v then
    let r := v.drop 2
    !r.isEmpty && r.all isHexDigit
  else if ['0', 'o'].isPrefixOf v || ['0', 'O'].isPrefixOf v then
    let r := v.drop 2
    !r.isEmpty && r.all (fun c => decide ('0' ≤ c) && decide (c ≤ '7'))
  else if ['0', 'b'].isPrefixOf v || ['0', 'B'].isPrefixOf v then
    let r := v.drop 2
    !r.isEmpty && r.all (fun c => c = '0' || c = '1')
  else
    let r := match v with
      | c :: t => if c = '+' || c = '-' then t else c :: t
      | [] => []
    r = "Infinity".toList || decBody r

/-- A parsed key-value block value: JavaScript boolean, number (represented
by its numeric source text), or string. -/
inductive KvVal where
  | boolean (b : Bool)
  | number (source : Str)
  | string (s : Str)
deriving DecidableEq, Repr

/-- A key-value mapping in JavaScript-object insertion order. -/
abbrev Kv := List (Str × KvVal)

/-- Models assignment `result[key] = value` on a JavaScript object: an
existing key keeps its position, a new key is appended. -/
def kvSet : Kv → Str → KvVal → Kv
  | [], k, v => [(k, v)]
  | (k', v') :: rest, k, v =>
    if k' = k then (k, v) :: rest else (k', v') :: kvSet rest k v

/-- The value-coercion chain of `parseKvContent`:
`'true'`/`'false'`, then `!isNaN(Number(value)) && value !== ''`, else the
string itself. -/
def coerceValue (v : Str) : KvVal :=
  if v = "true".toList then .boolean true
  else if v = "false".toList then .boolean false
  else if jsIsNumeric v && !v.isEmpty then .number v
  else .string v

/-- One line of the `parseKvContent` loop body. -/
def kvLine (m : Kv) (line : Str) : Kv :=
  let t := trim line
  if t.isEmpty then m
  else if ['/', '/'].isPrefixOf t then m
  else if ['#'].isPrefixOf t then m
  else
    match idxOf ':' t with
    | none => m
    | some ci => kvSet m (trim (t.take ci)) (coerceValue (trim (t.drop (ci + 1))))

/-- Embedding of `parseKvContent` (src/parser.ts): fold the loop body over
the lines; return `undefined` (here `none`) when the object stayed empty. -/
def parseKvContent (blockContent : Str) : Option Kv :=
  let result := (splitLines blockContent).foldl kvLine []
  if result.isEmpty then none else some result

/-! Spec-side formulation of the key-value parser (§4.2 `parseFlat`), used
to settle the refinement claim C6.  It is written from the spec's words:
usable lines are filtered out first, each is turned into a coerced pair, and
the mapping is built from the pairs; absent means zero usable lines. -/

/-- Spec §4.2: a line is usable unless blank or a comment, and must contain
a colon. -/
def usableLine (line : Str) : Bool :=
  let t := trim line
  !t.isEmpty && !(['/', '/'].isPrefixOf t) && !(['#'].isPrefixOf t) && (idxOf ':' t).isSome

/-- Spec §4.2 value coercion: literal `true`/`false` become booleans, else a
numeric-parseable value becomes a number, else the trimmed string stands. -/
def specCoerce (v : Str) : KvVal :=
  if v = "true".toList || v = "false".toList then .boolean (v = "true".toList)
  else if !v.isEmpty && jsIsNumeric v then .number v
  else .string v

/-- Spec §4.2: split a usable line at its first colon into a trimmed key and
a coerced trimmed value. -/
def lineToPair (line : Str) : Option (Str × KvVal) :=
  let t := trim line
  if t.isEmpty || ['/', '/'].isPrefixOf t || ['#'].isPrefixOf t then none
  else (idxOf ':' t).map fun ci =>
    (trim (t.take ci), specCoerce (trim (t.drop (ci + 1))))

/-- Spec §4.2 `parseFlat`: the mapping built from the usable lines' pairs,
absent when there are none. -/
def parseFlat (blockBody : Str) : Option Kv :=
  match (splitLines blockBody).filterMap lineToPair with
  | [] => none
  | pairs => some (pairs.foldl (fun m kv => kvSet m kv.1 kv.2) [])

/-! ## Document extractor (`parseBruFile`, src/parser.ts)

The parser is parameterised by the external relaxed-JSON parser
(`JSON5.parse`), modelled as a function `Str → Option J`: the source wraps
every call in `try … catch`, so a parse failure is exactly `none`. -/

/-- The apostrophe character (used by the `'''`-literal regex). -/
def sq : Char := '\x27'

/-- The double-quote character. -/
def dq : Char := '"'

/-- First index at which `pat` occurs as a substring. -/
def findSub (pat : Str) : Str → Option Nat
  | [] => if pat.isEmpty then some 0 else none
  | s@(_ :: rest) =>
    if pat.isPrefixOf s then some 0
    else (findSub pat rest).map (· + 1)

/-- Models a search for `key` `\s*` `(.+)` (the `name:`/`url:` line regexes):
find the first occurrence of `key` after which the greedy-with-backtracking
`\s*(.+)` can match, and return the trimmed capture. -/
def lineCapture (key : Str) : Str → Option Str
  | [] => none
  | s@(_ :: rest) =>
    if key.isPrefixOf s then
      let r := s.drop key.length
      let r0 := r.drop (wsCount r)
      if !r0.isEmpty then some (trim (r0.takeWhile (· ≠ '\n')))
      else if r.any (· ≠ '\n') && !r.isEmpty then some []
      else lineCapture key rest
    else lineCapture key rest

/-- Models `/meta\s*\{([\s\S]*?)\}/`: the lazily captured text between the
first `meta { ` opener and the next closing brace. -/
def metaFind : Str → Option Str
  | [] => none
  | s@(_ :: rest) =>
    if "meta".toList.isPrefixOf s then
      let r := s.drop 4
      match r.drop (wsCount r) with
      | c :: t =>
        if c = obc && t.any (· = cbc) then some (t.takeWhile (· ≠ cbc))
        else metaFind rest
      | [] => metaFind rest
    else metaFind rest

/-- Models `path.basename(filePath, '.bru')`. -/
def basename (p : Str) : Str :=
  let b := (p.reverse.takeWhile (· ≠ '/')).reverse
  if ".bru".toList.isSuffixOf b then b.take (b.length - 4) else b

/-- The method tokens of `/^(get|post|put|delete|patch|options|head)\s*\{/m`. -/
def methodTokens : List Str :=
  ["get", "post", "put", "delete", "patch", "options", "head"].map String.toList

/-- Does some method token followed by `\s*` `{` match at the head of `s`? -/
def methodMatchAt (s : Str) : Option Str :=
  methodTokens.findSome? fun tok =>
    if tok.isPrefixOf s then
      let r := s.drop tok.length
      match r.drop (wsCount r) with
      | c :: _ => if c = obc then some tok else none
      | [] => none
    else none

/-- Scan for the multiline-anchored method regex: a match may start at the
beginning of the text or right after a newline. -/
def methodFindAux : Str → Bool → Option Str
  | [], _ => none
  | s@(c :: rest), atStart =>
    match (if atStart then methodMatchAt s else none) with
    | some tok => some tok
    | none => methodFindAux rest (c = '\n')

/-- The extracted request method, `unknown` when no token line matches. -/
def methodFind (content : Str) : Str :=
  match methodFindAux content true with
  | some tok => tok
  | none => "unknown".toList

/-- Models `/code:\s*(\d+)/` followed by `parseInt`: the digit run after the
first `code:` that is followed (after whitespace) by at least one digit. -/
def codeCapture : Str → Option Nat
  | [] => none
  | s@(_ :: rest) =>
    if "code:".toList.isPrefixOf s then
      let r := s.drop 5
      let d := (r.drop (wsCount r)).takeWhile Char.isDigit
      if d.isEmpty then codeCapture rest else some (digitsToNat d)
    else codeCapture rest

/-- Models `/content:\s*'''([\s\S]*?)'''/`: after the first `content:` whose
whitespace run is followed by `'''`, the lazy capture up to the next `'''`. -/
def tryTriple : Str → Option Str
  | [] => none
  | s@(_ :: rest) =>
    if "content:".toList.isPrefixOf s then
      let r := s.drop 8
      let r2 := r.drop (wsCount r)
      if [sq, sq, sq].isPrefixOf r2 then
        match findSub [sq, sq, sq] (r2.drop 3) with
        | some q => some ((r2.drop 3).take q)
        | none => tryTriple rest
      else tryTriple rest
    else tryTriple rest

/-- Models `/content:\s*"([\s\S]*?)"/`. -/
def tryDouble : Str → Option Str
  | [] => none
  | s@(_ :: rest) =>
    if "content:".toList.isPrefixOf s then
      let r := s.drop 8
      let r2 := r.drop (wsCount r)
      match r2 with
      | c :: t =>
        if c = dq then
          match idxOf dq t with
          | some q => some (t.take q)
          | none => tryDouble rest
        else tryDouble rest
      | [] => tryDouble rest
    else tryDouble rest

/-- Models `/content:\s*([\s\S]+)/`: the greedy capture of everything after
the whitespace run (with `\s*` backtracking one whitespace character when
nothing else is left). -/
def tryBare : Str → Option Str
  | [] => none
  | s@(_ :: rest) =>
    if "content:".toList.isPrefixOf s then
      let r := s.drop 8
      if r.isEmpty then tryBare rest
      else
        let r2 := r.drop (wsCount r)
        if !r2.isEmpty then some r2
        else
          match r.reverse with
          | c :: _ => some [c]
          | [] => tryBare rest
    else tryBare rest

/-- The body-literal capture chain `match(…''') || match(…") || match(…)`. -/
def contentCapture (bodyBlock : Str) : Option Str :=
  (tryTriple bodyBlock).orElse fun _ =>
    (tryDouble bodyBlock).orElse fun _ => tryBare bodyBlock

/-- The block-name string `example`. -/
def exName : Str := "example".toList

/-- The block-name string `response`. -/
def respName : Str := "response".toList

/-- The block-name string `status`. -/
def statusName : Str := "status".toList

/-- The block-name string `body`. -/
def bodyName : Str := "body".toList

/-- The block-name string `headers`. -/
def headersName : Str := "headers".toList

/-- The block-name string `body:json`. -/
def bodyJsonName : Str := "body:json".toList

/-- The block-name string `params:query`. -/
def queryName : Str := "params:query".toList

/-- The block-name string `params:path`. -/
def paramsName : Str := "params:path".toList

/-- Does the pattern `name` `\s*` `{` (no optional colon — the shape of the
global `example\s*\{` regex) match at the head of `s`?  Returns the index of
its brace. -/
def patBraceNC (name s : Str) : Option Nat :=
  if name.isPrefixOf s then
    let r1 := s.drop name.length
    let w1 := wsCount r1
    match r1.drop w1 with
    | c :: _ => if c = obc then some (name.length + w1) else none
    | [] => none
  else none

/-- Leftmost match of `patBraceNC name` in `s`, as (match index, brace index). -/
def findPatNC (name : Str) : Str → Nat → Option (Nat × Nat)
  | [], _ => none
  | s@(_ :: rest), i =>
    match patBraceNC name s with
    | some b => some (i, i + b)
    | none => findPatNC name rest (i + 1)

/-- The `exampleRegex.exec` loop positions: each match of `example\s*\{`,
resuming the search right after the matched brace (`lastIndex`). -/
def exampleStartsAux (content : Str) : Nat → Nat → List Nat
  | 0, _ => []
  | fuel + 1, pos =>
    match findPatNC exName (content.drop pos) 0 with
    | none => []
    | some (i, b) => (pos + i) :: exampleStartsAux content fuel (pos + b + 1)

/-- All `example\s*\{` match indices found by the `while`/`exec` loop. -/
def exampleStarts (content : Str) : List Nat :=
  exampleStartsAux content (content.length + 1) 0

/-- An example response record (`Response` in src/parser.ts), with the body
abstract over the relaxed-JSON value type `J`. -/
structure Response (J : Type) where
  statusCode : Nat
  body : Option J
  headers : Option Kv
deriving Repr, DecidableEq

/-- A parsed document (`BruFile` in src/parser.ts). -/
structure BruFile (J : Type) where
  path : Str
  name : Str
  method : Str
  url : Str
  body : Option J
  headers : Option Kv
  query : Option Kv
  params : Option Kv
  responses : Option (List (Response J))
deriving Repr

/-- The body of one iteration of the example loop, without the duplicate-
status check: extract the example block at `start`, its response block, a
nonzero numeric status, and the body/headers fields. -/
def parseExample {J : Type} (j : Str → Option J) (content : Str) (start : Nat) :
    Option (Response J) :=
  match extractBlockContent (content.drop start) exName with
  | none => none
  | some exampleContent =>
    match extractBlockContent exampleContent respName with
    | none => none
    | some responseContent =>
      let code? :=
        match extractBlockContent responseContent statusName with
        | none => none
        | some statusBlock => codeCapture statusBlock
      match code? with
      | none => none
      | some c =>
        if c = 0 then none
        else
          let body :=
            match extractBlockContent responseContent bodyName with
            | none => none
            | some bodyBlock =>
              match contentCapture bodyBlock with
              | none => none
              | some lit => j (trim lit)
          let headers :=
            match extractBlockContent responseContent headersName with
            | none => none
            | some headersBlock => parseKvContent headersBlock
          some { statusCode := c, body := body, headers := headers }

/-- The example loop's accumulation with the `statusCodesSeen` set: a new
response is appended only when its status code has not been seen. -/
def respFold {J : Type} (j : Str → Option J) (content : Str) :
    List (Response J) → List Nat → List Nat → List (Response J)
  | rs, _, [] => rs
  | rs, seen, st :: rest =>
    match parseExample j content st with
    | none => respFold j content rs seen rest
    | some r =>
      if r.statusCode ∈ seen then respFold j content rs seen rest
      else respFold j content (rs ++ [r]) (r.statusCode :: seen) rest

/-- The `responses` array accumulated by `parseBruFile`. -/
def collectResponses {J : Type} (j : Str → Option J) (content : Str) :
    List (Response J) :=
  respFold j content [] [] (exampleStarts content)

/-- Every successfully extracted example response, in document order and
without status-code deduplication (the comparison list for claim C7). -/
def exampleCandidates {J : Type} (j : Str → Option J) (content : Str) :
    List (Response J) :=
  (exampleStarts content).filterMap (parseExample j content)

/-- Embedding of the body of `parseBruFile` (src/parser.ts): the record the
function unconditionally returns. -/
def parseBru {J : Type} (j : Str → Option J) (filePath content : Str) :
    BruFile J :=
  let name :=
    match metaFind content with
    | some mi =>
      match lineCapture "name:".toList mi with
      | some n => n
      | none => basename filePath
    | none => basename filePath
  let url :=
    match lineCapture "url:".toList content with
    | some u => u
    | none => []
  let responses := collectResponses j content
  let clean := stripBlocks exName content
  { path := filePath
    name := name
    method := methodFind content
    url := url
    body := (extractBlockContent clean bodyJsonName).bind j
    headers := (extractBlockContent clean headersName).bind parseKvContent
    query := (extractBlockContent clean queryName).bind parseKvContent
    params := (extractBlockContent clean paramsName).bind parseKvContent
    responses := if responses.isEmpty then none else some responses }

/-- Embedding of `parseBruFile` with its declared `BruFile | null` result
type: the source's single `return` statement yields a non-null record. -/
def parseBruFile {J : Type} (j : Str → Option J) (filePath content : Str) :
    Option (BruFile J) :=
  some (parseBru j filePath content)

/-! ## Naming engine and draft schemas (src/generator.ts)

The two snapshots of the generator in the repository share `toPascalCase`,
`toCamelCase` and the overall walk of `restructureArrays`; they differ in
the array convention.  Snapshot A (src/generator.ts) registers a lifted
array definition plus an `Item` sibling; snapshot B (the generator bundled
in src/unnamed/part_001) rewrites the array property in place with a
reference to the `Item` definition only. -/

/-- The JavaScript `\w` class. -/
def isWordChar (c : Char) : Bool := c.isAlpha || c.isDigit || c = '_'

/-- ASCII letters and digits (`[A-Za-z0-9]`). -/
def isAlnum (c : Char) : Bool := c.isAlpha || c.isDigit

/-- The per-character pass of `toPascalCase`'s first `replace`: upper-case a
word character at the start or after a non-word character (`^\w`, `\b\w`),
and the already-upper-case letters (`[A-Z]`). -/
def pascalAux : Option Char → Str → Str
  | _, [] => []
  | prev, c :: rest =>
    let boundary :=
      match prev with
      | none => isWordChar c
      | some p => (!isWordChar p && isWordChar c) || c.isUpper
    (if boundary then c.toUpper else c) :: pascalAux (some c) rest

/-- Embedding of `toPascalCase` (src/generator.ts): upper-case word starts,
then strip whitespace and every character outside `[A-Za-z0-9]`. -/
def toPascalCase (s : String) : String :=
  ⟨(pascalAux none s.toList).filter isAlnum⟩

/-- Embedding of `toCamelCase` (src/generator.ts). -/
def toCamelCase (s : String) : String :=
  match (toPascalCase s).toList with
  | [] => ""
  | c :: rest => ⟨c.toLower :: rest⟩

/-! The draft schema tree (§3 DraftSchema): object nodes with ordered
properties, array nodes with a single item schema, reference nodes, and all
remaining nodes (scalars, objects without properties) as opaque scalars. -/
mutual
inductive Sch where
  | ref (r : String)
  | arr (item : Sch)
  | obj (props : Props)
  | scalar (t : String)

inductive Props where
  | nil
  | cons (key : String) (val : Sch) (rest : Props)
end

/-- The definitions mapping, in JavaScript-object insertion order. -/
abbrev Defs := List (String × Sch)

/-- Models `definitions[name] = v`: replace in place or append. -/
def Defs.set : Defs → String → Sch → Defs
  | [], k, v => [(k, v)]
  | (k', v') :: rest, k, v =>
    if k' = k then (k, v) :: rest else (k', v') :: Defs.set rest k v

/-- Models `definitions[name]` property access. -/
def Defs.lookup : Defs → String → Option Sch
  | [], _ => none
  | (k', v') :: rest, k => if k' = k then some v' else Defs.lookup rest k

/-- Models `Object.keys(definitions)`. -/
def Defs.keys (d : Defs) : List String := d.map Prod.fst

/-! `refs`: all reference names occurring anywhere in a schema tree. -/
mutual
def Sch.refs : Sch → List String
  | .ref r => [r]
  | .arr item => item.refs
  | .obj props => props.refs
  | .scalar _ => []

def Props.refs : Props → List String
  | .nil => []
  | .cons _ v rest => v.refs ++ rest.refs
end

/-- Positional access into a property list. -/
def Props.get? : Props → Nat → Option (String × Sch)
  | .nil, _ => none
  | .cons k v _, 0 => some (k, v)
  | .cons _ _ rest, n + 1 => rest.get? n

/-! The `processObject` walk, snapshot B (src/unnamed/part_001).  The JS
mutates the shared `definitions` object and the processed node in place;
the embedding threads the mapping through explicitly, inserting a lifted
node before recursing into it and writing the processed result back after
(the in-place entry is re-read only through `Defs.lookup` on other names).
The recursion through freshly inserted definitions is controlled by fuel;
the source diverges where the fuel would run out (circular clones). -/

/-- The lifting step shared by every `processObject` branch that moves a
node into the definitions: store the node under `nm` (the JS clone-and-
assign), process it in place under its new name, and store the processed
result back. -/
def liftDef (rec : Sch → String → Defs → Sch × Defs) (nm : String) (v : Sch) (d : Defs) :
    Defs :=
  Defs.set (rec v nm (Defs.set d nm v)).2 nm (rec v nm (Defs.set d nm v)).1

def stepWithB (rec : Sch → String → Defs → Sch × Defs) :
    String → Sch → String → Defs → Sch × Defs
  | key, Sch.arr item, currentName, defs =>
    let arrayName := currentName ++ toPascalCase key
    let itemName := arrayName ++ "Item"
    let defs3 :=
      match item with
      | Sch.ref oldRef =>
        match Defs.lookup defs oldRef with
        | some d => liftDef rec itemName d defs
        | none => defs
      | _ => liftDef rec itemName item defs
    (Sch.arr (Sch.ref itemName), defs3)
  | key, Sch.obj ps, currentName, defs =>
    let objectName := currentName ++ toPascalCase key
    (Sch.ref objectName, liftDef rec objectName (Sch.obj ps) defs)
  | key, Sch.ref oldRef, currentName, defs =>
    let objectName := currentName ++ toPascalCase key
    match Defs.lookup defs oldRef with
    | some d =>
      if oldRef = objectName then (Sch.ref oldRef, defs)
      else (Sch.ref objectName, liftDef rec objectName d defs)
    | none => (Sch.ref oldRef, defs)
  | _, Sch.scalar t, _, defs => (Sch.scalar t, defs)

/-- The `for (const key of Object.keys(obj.properties))` loop, abstracted
over the per-property step function. -/
def propsGo (stepf : String → Sch → Defs → Sch × Defs) : Props → Defs → Props × Defs
  | .nil, defs => (.nil, defs)
  | .cons k p rest, defs =>
    let r1 := stepf k p defs
    let r2 := propsGo stepf rest r1.2
    (.cons k r1.1 r2.1, r2.2)

def processObjectB : Nat → Sch → String → Defs → Sch × Defs
  | 0, s, _, defs => (s, defs)
  | fuel + 1, Sch.obj ps, name, defs =>
    let r := propsGo (fun k p d => stepWithB (processObjectB fuel) k p name d) ps defs
    (Sch.obj r.1, r.2)
  | _ + 1, s, _, defs => (s, defs)

/-- The per-property branch of snapshot B's `processObject` at a given fuel. -/
def stepB (fuel : Nat) : String → Sch → String → Defs → Sch × Defs :=
  stepWithB (processObjectB fuel)

/-! The `processObject` walk, snapshot A (src/generator.ts): same item
lifting, plus a named definition for the array itself; the inline-object
branch recurses in place without lifting, and the `$ref` branch is a no-op. -/

def stepWithA (rec : Sch → String → Defs → Sch × Defs) :
    String → Sch → String → Defs → Sch × Defs
  | key, Sch.arr item, currentName, defs =>
    let arrayName := currentName ++ toPascalCase key
    let itemName := arrayName ++ "Item"
    let defs3 :=
      match item with
      | Sch.ref oldRef =>
        match Defs.lookup defs oldRef with
        | some d => liftDef rec itemName d defs
        | none => defs
      | _ => liftDef rec itemName item defs
    let defs4 := Defs.set defs3 arrayName (Sch.arr (Sch.ref itemName))
    (Sch.ref arrayName, defs4)
  | key, Sch.obj ps, currentName, defs =>
    rec (Sch.obj ps) (currentName ++ toPascalCase key) defs
  | _, Sch.ref oldRef, _, defs => (Sch.ref oldRef, defs)
  | _, Sch.scalar t, _, defs => (Sch.scalar t, defs)

def processObjectA : Nat → Sch → String → Defs → Sch × Defs
  | 0, s, _, defs => (s, defs)
  | fuel + 1, Sch.obj ps, name, defs =>
    let r := propsGo (fun k p d => stepWithA (processObjectA fuel) k p name d) ps defs
    (Sch.obj r.1, r.2)
  | _ + 1, s, _, defs => (s, defs)

/-- The per-property branch of snapshot A's `processObject` at a given fuel. -/
def stepA (fuel : Nat) : String → Sch → String → Defs → Sch × Defs :=
  stepWithA (processObjectA fuel)

/-- Embedding of `restructureArrays` from src/generator.ts (snapshot A):
the schema is a root node paired with its (possibly empty) definitions. -/
def restructureArraysA (fuel : Nat) (schema : Sch × Defs) (rootName : String) :
    Sch × Defs :=
  processObjectA fuel schema.1 rootName schema.2

/-- Embedding of `restructureArrays` from the generator snapshot bundled in
src/unnamed/part_001 (snapshot B). -/
def restructureArraysB (fuel : Nat) (schema : Sch × Defs) (rootName : String) :
    Sch × Defs :=
  processObjectB fuel schema.1 rootName schema.2

/-- Does every reference of `s` resolve to a key of `defs`? -/
def resolvesIn (s : Sch) (defs : Defs) : Prop :=
  ∀ r ∈ s.refs, r ∈ Defs.keys defs

/-- Does every reference of a property list resolve in `defs`? -/
def propsResolve (ps : Props) (defs : Defs) : Prop :=
  ∀ r ∈ ps.refs, r ∈ Defs.keys defs

/-- Do all definition bodies resolve within the mapping itself? -/
def defsOk (defs : Defs) : Prop :=
  ∀ kv ∈ defs, resolvesIn kv.2 defs

instance (s : Sch) (d : Defs) : Decidable (resolvesIn s d) :=
  List.decidableBAll _ _

instance (ps : Props) (d : Defs) : Decidable (propsResolve ps d) :=
  List.decidableBAll _ _

instance (d : Defs) : Decidable (defsOk d) :=
  List.decidableBAll _ _

/-- The emitted schema declaration names of `generateComponentSchema`:
one Zod segment per definition key (camel-cased, `Schema`-suffixed) plus the
root schema. -/
def schemaDeclNames (defs : Defs) (base : String) : List String :=
  defs.map (fun kv => toCamelCase (toPascalCase kv.1) ++ "Schema")
    ++ [toCamelCase base ++ "Schema"]

/-- The emitted type-alias names of `generateComponentSchema`: one per
definition key plus the main type. -/
def typeAliasNames (defs : Defs) (base : String) : List String :=
  defs.map (fun kv => toPascalCase kv.1) ++ [base]

/-- Modelled from the spec: the external sample-to-schema inferencer
(`quicktype-core`), which is not part of this repository.  Per §3 a draft
schema is "a tree mirroring the sample payload's shape", so for the §8
scenario-2 sample `\x7b "posts": [ \x7b "id": 1, "title": "Hi" \x7d ] \x7d`
the inferred draft is an object with one array property whose inline item is
an object with an integer and a string property, with no definitions yet. -/
def inferredPostsDraft : Sch × Defs :=
  (Sch.obj (Props.cons "posts"
      (Sch.arr (Sch.obj (Props.cons "id" (Sch.scalar "integer")
        (Props.cons "title" (Sch.scalar "string") Props.nil))))
      Props.nil),
   [])

/-! ## Lemmas about the block scanner -/

theorem idxOf_lt_length {c : Char} :
    ∀ {s : Str} {k : Nat}, idxOf c s = some k → k < s.length := by
  intro s
  induction s with
  | nil => intro k h; simp [idxOf] at h
  | cons a rest ih =>
    intro k h
    simp only [idxOf] at h
    split at h
    · cases h; simp
    · cases hx : idxOf c rest with
      | none => rw [hx] at h; simp at h
      | some k' =>
        rw [hx] at h
        simp only [Option.map_some'] at h
        cases h
        have := ih hx
        simp
        omega

theorem scanBraces_le_length :
    ∀ (s : Str) (d m : Nat), scanBraces s d = some m → m ≤ s.length ∧ (0 < d → 0 < m) := by
  intro s
  induction s with
  | nil =>
    intro d m h
    cases d with
    | zero => simp [scanBraces] at h; omega
    | succ d' => simp [scanBraces] at h
  | cons a rest ih =>
    intro d m h
    cases d with
    | zero => simp [scanBraces] at h; omega
    | succ d' =>
      simp only [scanBraces] at h
      cases hx : scanBraces rest (if a = obc then d' + 2 else if a = cbc then d' else d' + 1) with
      | none => rw [hx] at h; simp at h
      | some m' =>
        rw [hx] at h
        simp only [Option.map_some'] at h
        cases h
        have := (ih _ _ hx).1
        constructor
        · simpa using Nat.succ_le_succ this
        · intro; omega

theorem stripStep_shortens {name s s' : Str} :
    stripStep name s = some s' → s'.length < s.length := by
  intro h
  unfold stripStep at h
  split at h
  · simp at h
  next i h1 =>
    split at h
    · simp at h
    next k h2 =>
      split at h
      · simp at h
      next m h3 =>
        cases h
        have hk : k < s.length - i := by simpa using idxOf_lt_length h2
        have hm := scanBraces_le_length _ _ _ h3
        rw [List.length_drop] at hm
        have hm1 : 0 < m := hm.2 (by omega)
        have hm2 : m ≤ s.length - (i + k + 1) := hm.1
        simp only [List.length_append, List.length_take, List.length_drop]
        omega

theorem stripBlocksAux_stable (name : Str) :
    ∀ (n : Nat) (s : Str), s.length ≤ n →
      ∀ f1 f2, n < f1 → n < f2 →
        stripBlocksAux name f1 s = stripBlocksAux name f2 s := by
  intro n
  induction n using Nat.strong_induction_on with
  | _ n ih =>
    intro s hs f1 f2 h1 h2
    cases f1 with
    | zero => omega
    | succ f1' =>
      cases f2 with
      | zero => omega
      | succ f2' =>
        simp only [stripBlocksAux]
        cases hstep : stripStep name s with
        | none => rfl
        | some s' =>
          have hlt := stripStep_shortens hstep
          exact ih s'.length (by omega) s' (le_refl _) f1' f2' (by omega) (by omega)

/-- C10: `stripBlocks` terminates on every input text and block name: every
loop iteration that removes a balanced block strictly shortens the working
text, so the fueled loop stabilizes once the fuel exceeds the text length
and `stripBlocks` (which runs with fuel `length + 1`) computes that limit. -/
theorem stripBlocks_terminates :
    (∀ (name s s' : Str), stripStep name s = some s' → s'.length < s.length) ∧
    (∀ (name s : Str) (f : Nat), s.length < f →
      stripBlocksAux name f s = stripBlocks name s) :=
  ⟨fun _ _ _ h => stripStep_shortens h,
   fun name s f hf =>
    stripBlocksAux_stable name s.length s (le_refl _) f (s.length + 1) hf (by omega)⟩

/-- Witness for C10 at a concrete input: one stripping step on
`"a example \x7bx\x7d b"` removes the block and shortens the text, and extra
fuel does not change `stripBlocks`' result. -/
theorem stripBlocks_terminates_witness :
    ("a  b".toList.length < "a example \x7bx\x7d b".toList.length) ∧
    stripBlocksAux "example".toList 40 "a example \x7bx\x7d b".toList =
      stripBlocks "example".toList "a example \x7bx\x7d b".toList :=
  ⟨stripBlocks_terminates.1 "example".toList "a example \x7bx\x7d b".toList
      "a  b".toList (by decide),
   stripBlocks_terminates.2 "example".toList "a example \x7bx\x7d b".toList 40 (by decide)⟩

/-! ## C5: declarative characterization of `extractBlockContent` -/

/-- The brace contribution of one character. -/
def deltaChar (c : Char) : Int :=
  if c = obc then 1 else if c = cbc then -1 else 0

/-- The running brace depth over a text ("counting nested braces by
depth"): opening braces count +1, closing braces −1. -/
def delta : Str → Int
  | [] => 0
  | c :: t => deltaChar c + delta t

theorem delta_nil : delta [] = 0 := rfl

theorem delta_cons (c : Char) (t : Str) : delta (c :: t) = deltaChar c + delta t := rfl

theorem delta_append (a b : Str) : delta (a ++ b) = delta a + delta b := by
  induction a with
  | nil => simp [delta]
  | cons c t ih =>
    show deltaChar c + delta (t ++ b) = deltaChar c + delta t + delta b
    rw [ih]
    ring

theorem deltaChar_cbc_of_neg {c : Char} (h : deltaChar c = -1) : c = cbc := by
  unfold deltaChar at h
  split at h
  · omega
  · split at h
    · assumption
    · omega

/-- Spec §8: `inner` is the text strictly between the first balanced brace
pair of `t` (whose opening brace has just been consumed): `t` continues with
the balancing closing brace, the depth over `inner` sums to zero, and no
prefix of `inner` closes more braces than it opens. -/
def specInner (t inner : Str) : Prop :=
  (∃ rest, t = inner ++ cbc :: rest) ∧ delta inner = 0 ∧
    ∀ p, p <+: inner → 0 ≤ delta p

/-- Spec §4.1: the result of `extract` is the substring strictly between the
opening brace of the first matching block header (the leftmost position
where the header pattern matches, then the first `{` from there on) and its
balancing closing brace. -/
def specExtract (content name inner : Str) : Prop :=
  ∃ i pre t, (patBrace name (content.drop i)).isSome ∧
    (∀ i' < i, patBrace name (content.drop i') = none) ∧
    content.drop i = pre ++ obc :: t ∧ obc ∉ pre ∧ specInner t inner

theorem patBrace_nil (name : Str) : patBrace name [] = none := by
  unfold patBrace
  split
  · simp [wsCount]
  · rfl

theorem findPatAux_eq_some_iff (name : Str) :
    ∀ (s : Str) (base i : Nat),
      findPatAux name s base = some i ↔
        ∃ o, i = base + o ∧ (patBrace name (s.drop o)).isSome ∧
          ∀ o' < o, patBrace name (s.drop o') = none := by
  intro s
  induction s with
  | nil =>
    intro base i
    simp only [findPatAux]
    constructor
    · intro h; cases h
    · rintro ⟨o, rfl, hsome, -⟩
      rw [List.drop_nil, patBrace_nil] at hsome
      simp at hsome
  | cons c rest ih =>
    intro base i
    cases hp : patBrace name (c :: rest) with
    | some b =>
      simp only [findPatAux, hp]
      constructor
      · intro h
        have hbi : base = i := by cases h; rfl
        subst hbi
        exact ⟨0, by omega, by rw [List.drop_zero]; simp [hp], fun o' ho' => by omega⟩
      · rintro ⟨o, rfl, hsome, hall⟩
        have ho : o = 0 := by
          by_contra hne
          have h0 := hall 0 (by omega)
          rw [List.drop_zero] at h0
          rw [h0] at hp
          cases hp
        subst ho
        simp
    | none =>
      simp only [findPatAux, hp]
      rw [ih (base + 1) i]
      constructor
      · rintro ⟨o, rfl, hsome, hall⟩
        refine ⟨o + 1, by omega, ?_, ?_⟩
        · rw [List.drop_succ_cons]
          exact hsome
        · intro o' ho'
          cases o' with
          | zero => rw [List.drop_zero]; exact hp
          | succ o'' => rw [List.drop_succ_cons]; exact hall o'' (by omega)
      · rintro ⟨o, rfl, hsome, hall⟩
        cases o with
        | zero =>
          rw [List.drop_zero, hp] at hsome
          simp at hsome
        | succ o'' =>
          refine ⟨o'', by omega, ?_, ?_⟩
          · rw [List.drop_succ_cons] at hsome
            exact hsome
          · intro o' ho'
            have := hall (o' + 1) (by omega)
            rw [List.drop_succ_cons] at this
            exact this

theorem idxOf_eq_some_iff {c : Char} :
    ∀ (s : Str) (k : Nat),
      idxOf c s = some k ↔ ∃ pre t, s = pre ++ c :: t ∧ c ∉ pre ∧ pre.length = k := by
  intro s
  induction s with
  | nil =>
    intro k
    simp only [idxOf]
    constructor
    · intro h; simp at h
    · rintro ⟨pre, t, h, -, -⟩
      exact absurd h (by simp)
  | cons a rest ih =>
    intro k
    simp only [idxOf]
    by_cases ha : a = c
    · subst ha
      simp only [if_pos rfl]
      constructor
      · intro h
        cases h
        exact ⟨[], rest, by simp⟩
      · rintro ⟨pre, t, hdec, hnot, hlen⟩
        cases pre with
        | nil =>
          simp at hdec hlen
          simp [hlen]
        | cons p ps =>
          have : p = a := by
            have := congrArg (fun l => l.head?) hdec
            simpa using this.symm
          subst this
          simp at hnot
    · simp only [if_neg ha]
      constructor
      · intro h
        cases hx : idxOf c rest with
        | none => rw [hx] at h; simp at h
        | some k' =>
          rw [hx] at h
          simp only [Option.map_some'] at h
          cases h
          obtain ⟨pre, t, hdec, hnot, hlen⟩ := (ih k').mp hx
          exact ⟨a :: pre, t, by simp [hdec], by simp [hnot, Ne.symm, ha], by simp [hlen]⟩
      · rintro ⟨pre, t, hdec, hnot, hlen⟩
        cases pre with
        | nil =>
          simp at hdec
          exact absurd hdec.1 ha
        | cons p ps =>
          have hpa : p = a := by
            have := congrArg (fun l => l.head?) hdec
            simpa using this.symm
          subst hpa
          simp only [List.cons_append, List.cons.injEq] at hdec
          simp only [List.mem_cons, not_or] at hnot
          have : idxOf c rest = some ps.length :=
            (ih ps.length).mpr ⟨ps, t, hdec.2, hnot.2, rfl⟩
          rw [this]
          simp at hlen
          simp [hlen]

theorem scanBraces_iff :
    ∀ (s : Str) (d m : Nat),
      scanBraces s d = some m ↔
        m ≤ s.length ∧ (d : Int) + delta (s.take m) = 0 ∧
          ∀ j < m, 0 < (d : Int) + delta (s.take j) := by
  intro s
  induction s with
  | nil =>
    intro d m
    cases d with
    | zero =>
      constructor
      · intro h
        simp only [scanBraces, Option.some.injEq] at h
        subst h
        exact ⟨by simp, by simp [delta], by omega⟩
      · rintro ⟨hm, _, _⟩
        simp at hm
        subst hm
        simp [scanBraces]
    | succ d' =>
      constructor
      · intro h; simp [scanBraces] at h
      · rintro ⟨hm, hd, -⟩
        simp at hm
        subst hm
        simp only [List.take_nil, delta_nil, add_zero] at hd
        omega
  | cons c rest ih =>
    intro d m
    cases d with
    | zero =>
      constructor
      · intro h
        simp only [scanBraces, Option.some.injEq] at h
        subst h
        exact ⟨by simp, by simp [delta], by omega⟩
      · rintro ⟨hm, hd, hall⟩
        have hm0 : m = 0 := by
          by_contra hne
          have := hall 0 (by omega)
          simp only [List.take_zero, delta_nil, add_zero] at this
          omega
        subst hm0
        simp [scanBraces]
    | succ d' =>
      have key : ((if c = obc then d' + 2 else if c = cbc then d' else d' + 1 : Nat) : Int)
          = (d' + 1 : Int) + deltaChar c := by
        unfold deltaChar
        split_ifs <;> push_cast <;> omega
      constructor
      · intro h
        simp only [scanBraces] at h
        cases hx : scanBraces rest (if c = obc then d' + 2 else if c = cbc then d' else d' + 1) with
        | none => rw [hx] at h; simp at h
        | some m' =>
          rw [hx] at h
          simp only [Option.map_some'] at h
          cases h
          obtain ⟨h1, h2, h3⟩ := (ih _ m').mp hx
          rw [key] at h2
          refine ⟨by simp; omega, ?_, ?_⟩
          · rw [List.take_succ_cons, delta_cons]
            omega
          · intro j hj
            cases j with
            | zero =>
              simp only [List.take_zero, delta_nil, add_zero]
              positivity
            | succ j' =>
              have := h3 j' (by omega)
              rw [key] at this
              rw [List.take_succ_cons, delta_cons]
              omega
      · rintro ⟨hm, hd, hall⟩
        cases m with
        | zero =>
          simp only [List.take_zero, delta_nil, add_zero] at hd
          omega
        | succ m' =>
          simp only [scanBraces]
          rw [List.take_succ_cons, delta_cons] at hd
          have hrec : scanBraces rest (if c = obc then d' + 2 else if c = cbc then d' else d' + 1)
              = some m' := by
            refine (ih _ m').mpr ⟨by simp at hm; omega, ?_, ?_⟩
            · rw [key]; omega
            · intro j hj
              have := hall (j + 1) (by omega)
              rw [List.take_succ_cons, delta_cons] at this
              rw [key]
              omega
          rw [hrec]
          simp

theorem specInner_of_scan {t : Str} {m : Nat} (h : scanBraces t 1 = some m) :
    specInner t (t.take (m - 1)) := by
  obtain ⟨hm, hd, hall⟩ := (scanBraces_iff t 1 m).mp h
  have hm1 : 1 ≤ m := by
    by_contra hc
    have : m = 0 := by omega
    subst this
    simp only [List.take_zero, delta_nil, add_zero] at hd
    omega
  have hlt : m - 1 < t.length := by omega
  have hdrop : t.drop (m - 1) = t[m - 1] :: t.drop m := by
    have := List.drop_eq_getElem_cons hlt
    simpa [show m - 1 + 1 = m by omega] using this
  have htake : t.take m = t.take (m - 1) ++ [t[m - 1]] := by
    conv_lhs => rw [show m = (m - 1) + 1 by omega]
    rw [List.take_succ]
    simp [List.getElem?_eq_getElem hlt]
  have hds : delta (t.take m) = delta (t.take (m - 1)) + deltaChar t[m - 1] := by
    rw [htake, delta_append]
    simp [delta]
  have hprev : 0 < 1 + delta (t.take (m - 1)) := by
    have := hall (m - 1) (by omega)
    simpa using this
  have hrange : -1 ≤ deltaChar t[m - 1] ∧ deltaChar t[m - 1] ≤ 1 := by
    unfold deltaChar
    split_ifs <;> omega
  have hchar : deltaChar t[m - 1] = -1 := by omega
  have hzero : delta (t.take (m - 1)) = 0 := by omega
  refine ⟨⟨t.drop m, ?_⟩, hzero, ?_⟩
  · have hc : t[m - 1] = cbc := deltaChar_cbc_of_neg hchar
    conv_lhs => rw [← List.take_append_drop (m - 1) t]
    rw [hdrop, hc]
  · intro p hp
    have hlen : p.length ≤ m - 1 := by
      have h1 := hp.length_le
      rw [List.length_take] at h1
      omega
    have hpeq : p = t.take p.length := by
      have h1 := List.prefix_iff_eq_take.mp hp
      rw [List.take_take] at h1
      simpa [Nat.min_eq_left hlen] using h1
    rw [hpeq]
    have := hall p.length (by omega)
    omega

theorem scan_of_specInner {t inner : Str} (h : specInner t inner) :
    scanBraces t 1 = some (inner.length + 1) := by
  obtain ⟨⟨rest, hdec⟩, hd0, hpre⟩ := h
  subst hdec
  apply (scanBraces_iff _ 1 _).mpr
  have hcbc : deltaChar cbc = -1 := by decide
  refine ⟨by simp, ?_, ?_⟩
  · have htake : (inner ++ cbc :: rest).take (inner.length + 1) = inner ++ [cbc] := by
      rw [List.take_append_eq_append_take]
      have h1 : (inner.length + 1) - inner.length = 1 := by omega
      rw [h1]
      simp [List.take_of_length_le]
    rw [htake, delta_append]
    simp [delta, hcbc, hd0]
  · intro j hj
    have htj : (inner ++ cbc :: rest).take j = inner.take j := by
      rw [List.take_append_eq_append_take]
      have h1 : j - inner.length = 0 := by omega
      rw [h1]
      simp
    rw [htj]
    have := hpre (inner.take j) ⟨inner.drop j, List.take_append_drop j inner⟩
    omega

theorem drop_decomp {content pre t' : Str} {i k : Nat}
    (hdec : content.drop i = pre ++ obc :: t') (hlen : pre.length = k) :
    content.drop (i + k + 1) = t' := by
  have h1 : (content.drop i).drop (k + 1) = t' := by
    rw [hdec, ← hlen]
    rw [List.drop_append_eq_append_drop]
    simp
  rw [List.drop_drop] at h1
  rw [show i + k + 1 = i + (k + 1) by ring]
  exact h1

/-- C5: for every input text and block name, `extractBlockContent` returns
exactly the substring strictly between the opening brace of the first
matching block header and its balancing closing brace (counting nested
braces by depth), and returns absent when no header matches or when the
braces never balance. -/
theorem extractBlockContent_correct :
    ∀ (content name inner : Str),
      extractBlockContent content name = some inner ↔ specExtract content name inner := by
  intro content name inner
  constructor
  · intro h
    unfold extractBlockContent at h
    split at h
    · simp at h
    next i h1 =>
      split at h
      · simp at h
      next k h2 =>
        split at h
        · simp at h
        next m h3 =>
          cases h
          obtain ⟨pre, t', hdec, hnot, hlen⟩ := (idxOf_eq_some_iff _ _).mp h2
          have ht : content.drop (i + k + 1) = t' := drop_decomp hdec hlen
          rw [ht] at h3 ⊢
          obtain ⟨o, ho, hsome, hall⟩ := (findPatAux_eq_some_iff name content 0 i).mp h1
          have hoi : o = i := by omega
          subst hoi
          exact ⟨o, pre, t', hsome, hall, hdec, hnot, specInner_of_scan h3⟩
  · rintro ⟨i, pre, t', hsome, hfirst, hdec, hnot, hinner⟩
    have h1 : findPatAux name content 0 = some i :=
      (findPatAux_eq_some_iff name content 0 i).mpr ⟨i, by omega, hsome, hfirst⟩
    have h2 : idxOf obc (content.drop i) = some pre.length :=
      (idxOf_eq_some_iff _ _).mpr ⟨pre, t', hdec, hnot, rfl⟩
    have ht : content.drop (i + pre.length + 1) = t' := drop_decomp hdec rfl
    have hscan := scan_of_specInner hinner
    unfold extractBlockContent
    split
    · next heq => simp [h1] at heq
    next i' heq =>
      have hii : i' = i := by rw [h1] at heq; cases heq; rfl
      subst hii
      split
      · next heq2 => simp [h2] at heq2
      next k heq2 =>
        have hk : k = pre.length := by rw [h2] at heq2; cases heq2; rfl
        subst hk
        rw [ht]
        split
        · next heq3 => rw [hscan] at heq3; cases heq3
        next m heq3 =>
          have hm : m = inner.length + 1 := by rw [hscan] at heq3; cases heq3; rfl
          subst hm
          simp only [Nat.add_sub_cancel, Option.some.injEq]
          obtain ⟨rest, hteq⟩ := hinner.1
          rw [hteq]
          exact List.take_left _ _

/-! ## C6: the key-value parser agrees with the spec's `parseFlat` -/

theorem coerceValue_eq_specCoerce (v : Str) : coerceValue v = specCoerce v := by
  unfold coerceValue specCoerce
  by_cases h1 : v = "true".toList
  · simp [h1]
  · by_cases h2 : v = "false".toList
    · simp [h1, h2]
    · simp only [h1, h2, if_false, decide_False, Bool.or_false, Bool.false_or]
      cases hjs : jsIsNumeric v <;> cases hemp : v.isEmpty <;> simp [hjs, hemp]

theorem kvLine_eq_lineToPair (m : Kv) (line : Str) :
    kvLine m line =
      match lineToPair line with
      | none => m
      | some kv => kvSet m kv.1 kv.2 := by
  unfold kvLine lineToPair
  by_cases h1 : (trim line).isEmpty
  · simp [h1]
  · by_cases h2 : ['/', '/'].isPrefixOf (trim line)
    · simp [h1, h2]
    · by_cases h3 : ['#'].isPrefixOf (trim line)
      · simp [h1, h2, h3]
      · simp only [h1, h2, h3, if_false, Bool.false_or, Bool.or_self, decide_False,
          Bool.false_and, Bool.or_false]
        cases hx : idxOf ':' (trim line) with
        | none => simp [hx]
        | some ci => simp [hx, coerceValue_eq_specCoerce]

theorem foldl_kvLine_eq_filterMap (lines : List Str) :
    ∀ m : Kv,
      lines.foldl kvLine m
        = (lines.filterMap lineToPair).foldl (fun m kv => kvSet m kv.1 kv.2) m := by
  induction lines with
  | nil => intro m; rfl
  | cons l ls ih =>
    intro m
    simp only [List.foldl_cons, List.filterMap_cons]
    rw [kvLine_eq_lineToPair]
    cases h : lineToPair l with
    | none => exact ih m
    | some kv => simp only [List.foldl_cons]; exact ih _

theorem kvSet_ne_nil (m : Kv) (k : Str) (v : KvVal) : kvSet m k v ≠ [] := by
  cases m with
  | nil => simp [kvSet]
  | cons a rest =>
    obtain ⟨k', v'⟩ := a
    simp only [kvSet]
    split <;> simp

theorem foldl_kvSet_eq_nil_iff :
    ∀ (pairs : List (Str × KvVal)) (m : Kv),
      pairs.foldl (fun m kv => kvSet m kv.1 kv.2) m = [] ↔ m = [] ∧ pairs = [] := by
  intro pairs
  induction pairs with
  | nil => intro m; simp
  | cons p ps ih =>
    intro m
    simp only [List.foldl_cons]
    rw [ih]
    simp [kvSet_ne_nil]

theorem lineToPair_eq_none_iff (line : Str) :
    lineToPair line = none ↔ usableLine line = false := by
  unfold lineToPair usableLine
  by_cases h1 : (trim line).isEmpty
  · simp [h1]
  · by_cases h2 : ['/', '/'].isPrefixOf (trim line)
    · simp [h1, h2]
    · by_cases h3 : ['#'].isPrefixOf (trim line)
      · simp [h1, h2, h3]
      · simp only [h1, h2, h3, if_false, decide_False, Bool.or_false, Bool.false_or,
          Bool.or_self, decide_True, Bool.true_and, Bool.and_true]
        cases hx : idxOf ':' (trim line) with
        | none => simp [hx]
        | some ci => simp [hx]

/-- C6: for every block body, `parseKvContent` computes exactly the spec's
`parseFlat` — each usable `key: value` line is split at its first colon with
both sides trimmed and the value coerced in the order boolean literal,
numeric-parseable number, trimmed string — and the result is absent exactly
when zero usable lines were found. -/
theorem parseKvContent_correct :
    ∀ blockBody : Str,
      parseKvContent blockBody = parseFlat blockBody ∧
      (parseKvContent blockBody = none ↔
        ∀ l ∈ splitLines blockBody, usableLine l = false) := by
  intro b
  have hfold := foldl_kvLine_eq_filterMap (splitLines b) []
  constructor
  · unfold parseKvContent parseFlat
    rw [hfold]
    cases hp : (splitLines b).filterMap lineToPair with
    | nil => simp
    | cons p ps =>
      have hne : (p :: ps).foldl (fun m kv => kvSet m kv.1 kv.2) ([] : Kv) ≠ [] := by
        intro hc
        rw [foldl_kvSet_eq_nil_iff] at hc
        exact absurd hc.2 (by simp)
      rw [if_neg (fun hc => hne (List.isEmpty_iff.mp hc))]
  · unfold parseKvContent
    rw [hfold]
    constructor
    · intro h
      by_cases hr :
          ((splitLines b).filterMap lineToPair).foldl (fun m kv => kvSet m kv.1 kv.2) ([] : Kv)
            = []
      · rw [foldl_kvSet_eq_nil_iff] at hr
        have := List.filterMap_eq_nil_iff.mp hr.2
        intro l hl
        exact (lineToPair_eq_none_iff l).mp (this l hl)
      · rw [if_neg (by simpa [List.isEmpty_iff] using hr)] at h
        cases h
    · intro h
      have hp : (splitLines b).filterMap lineToPair = [] :=
        List.filterMap_eq_nil_iff.mpr fun l hl => (lineToPair_eq_none_iff l).mpr (h l hl)
      rw [hp]
      simp

/-! ## C7: status-code deduplication keeps the first occurrence -/

theorem respFold_append {J : Type} (j : Str → Option J) (content : Str) :
    ∀ (starts : List Nat) (rs : List (Response J)) (seen : List Nat),
      respFold j content rs seen starts = rs ++ respFold j content [] seen starts := by
  intro starts
  induction starts with
  | nil => intro rs seen; simp [respFold]
  | cons st rest ih =>
    intro rs seen
    cases hp : parseExample j content st with
    | none => simp only [respFold, hp]; exact ih rs seen
    | some r =>
      simp only [respFold, hp]
      split
      · exact ih rs seen
      · rw [ih (rs ++ [r]), ih ([] ++ [r])]
        simp

theorem respFold_sound {J : Type} (j : Str → Option J) (content : Str) :
    ∀ (starts : List Nat) (seen : List Nat) (r : Response J),
      r ∈ respFold j content [] seen starts →
        r.statusCode ∉ seen ∧ ∃ st ∈ starts, parseExample j content st = some r := by
  intro starts
  induction starts with
  | nil => intro seen r hr; simp [respFold] at hr
  | cons st rest ih =>
    intro seen r hr
    cases hp : parseExample j content st with
    | none =>
      simp only [respFold, hp] at hr
      obtain ⟨h1, st', h2, h3⟩ := ih seen r hr
      exact ⟨h1, st', by simp [h2], h3⟩
    | some r' =>
      simp only [respFold, hp] at hr
      split at hr
      · obtain ⟨h1, st', h2, h3⟩ := ih seen r hr
        exact ⟨h1, st', by simp [h2], h3⟩
      · next hseen =>
        rw [respFold_append] at hr
        simp only [List.nil_append, List.singleton_append, List.mem_cons] at hr
        cases hr with
        | inl he => subst he; exact ⟨hseen, st, by simp, hp⟩
        | inr hm =>
          obtain ⟨h1, st', h2, h3⟩ := ih _ r hm
          simp only [List.mem_cons, not_or] at h1
          exact ⟨h1.2, st', by simp [h2], h3⟩

theorem respFold_nodup {J : Type} (j : Str → Option J) (content : Str) :
    ∀ (starts : List Nat) (seen : List Nat),
      ((respFold j content [] seen starts).map Response.statusCode).Nodup := by
  intro starts
  induction starts with
  | nil => intro seen; simp [respFold]
  | cons st rest ih =>
    intro seen
    cases hp : parseExample j content st with
    | none => simp only [respFold, hp]; exact ih seen
    | some r' =>
      simp only [respFold, hp]
      split
      · exact ih seen
      · rw [respFold_append]
        simp only [List.nil_append, List.singleton_append, List.map_cons, List.nodup_cons]
        refine ⟨?_, ih _⟩
        intro hmem
        obtain ⟨r, hr, hcode⟩ := List.mem_map.mp hmem
        have := (respFold_sound j content rest _ r hr).1
        simp [hcode] at this

theorem find?_statusCode_cons_pos {J : Type} (c : Nat) (r : Response J)
    (l : List (Response J)) (h : r.statusCode = c) :
    (r :: l).find? (fun x => x.statusCode == c) = some r :=
  List.find?_cons_of_pos _ (by simp [h])

theorem find?_statusCode_cons_neg {J : Type} (c : Nat) (r : Response J)
    (l : List (Response J)) (h : ¬ r.statusCode = c) :
    (r :: l).find? (fun x => x.statusCode == c) = l.find? (fun x => x.statusCode == c) :=
  List.find?_cons_of_neg _ (by simp [h])

theorem respFold_find? {J : Type} (j : Str → Option J) (content : Str) :
    ∀ (starts : List Nat) (seen : List Nat) (c : Nat), c ∉ seen →
      (respFold j content [] seen starts).find? (fun r => r.statusCode == c)
        = (starts.filterMap (parseExample j content)).find? (fun r => r.statusCode == c) := by
  intro starts
  induction starts with
  | nil => intro seen c _; simp [respFold]
  | cons st rest ih =>
    intro seen c hc
    cases hp : parseExample j content st with
    | none =>
      simp only [respFold, hp, List.filterMap_cons]
      exact ih seen c hc
    | some r' =>
      simp only [respFold, hp, List.filterMap_cons]
      split
      · next hseen =>
        have hne : ¬ r'.statusCode = c := fun he => hc (he ▸ hseen)
        rw [find?_statusCode_cons_neg c r' _ hne]
        exact ih seen c hc
      · next hseen =>
        rw [respFold_append]
        simp only [List.nil_append, List.singleton_append]
        by_cases hrc : r'.statusCode = c
        · rw [find?_statusCode_cons_pos c r' _ hrc, find?_statusCode_cons_pos c r' _ hrc]
        · rw [find?_statusCode_cons_neg c r' _ hrc, find?_statusCode_cons_neg c r' _ hrc]
          refine ih _ c ?_
          simp only [List.mem_cons, not_or]
          exact ⟨fun he => hrc he.symm, hc⟩

/-- C7: within one document, example responses are deduplicated by status
code with the first occurrence winning: the collected response list has
pairwise distinct status codes, and looking any status code up in it gives
exactly the first successfully extracted example with that code. -/
theorem responses_first_wins :
    ∀ (J : Type) (j : Str → Option J) (content : Str) (c : Nat),
      ((collectResponses j content).map Response.statusCode).Nodup ∧
      (collectResponses j content).find? (fun r => r.statusCode == c)
        = (exampleCandidates j content).find? (fun r => r.statusCode == c) := by
  intro J j content c
  exact ⟨respFold_nodup j content _ [],
    respFold_find? j content _ [] c (by simp)⟩

/-! ## C8/C9: error handling and totality of the document parser -/

/-- A document whose only `headers` block sits inside an `example` block
(the shape of the repository's own regression fixture). -/
def headersRegression : Str :=
  ("example \x7b\n  response: \x7b\n    status: \x7b code: 200 \x7d\n" ++
   "    headers: \x7b\n      a: 1\n    \x7d\n  \x7d\n\x7d").toList

/-- A document with an independent top-level `headers` block. -/
def headersTopLevel : Str :=
  "headers \x7b\n  x: 1\n\x7d".toList


theorem parseExample_const_none_body {J : Type} {content : Str} {st : Nat}
    {r : Response J} (h : parseExample (fun _ => none) content st = some r) :
    r.body = none := by
  unfold parseExample at h
  cases hA : extractBlockContent (content.drop st) exName with
  | none => simp [hA] at h
  | some ec =>
    simp only [hA] at h
    cases hB : extractBlockContent ec respName with
    | none => simp [hB] at h
    | some rc =>
      simp only [hB] at h
      cases hC : extractBlockContent rc statusName with
      | none => simp [hC] at h
      | some sb =>
        simp only [hC] at h
        cases hD : codeCapture sb with
        | none => simp [hD] at h
        | some c =>
          simp only [hD] at h
          by_cases hc0 : c = 0
          · simp [hc0] at h
          · simp only [if_neg hc0] at h
            cases h
            show (match extractBlockContent rc bodyName with
              | none => none
              | some bodyBlock =>
                match contentCapture bodyBlock with
                | none => none
                | some lit => (fun _ => (none : Option J)) (trim lit)) = none
            split
            · rfl
            · split <;> rfl

theorem respFold_mem {J : Type} (j : Str → Option J) (content : Str) :
    ∀ (starts : List Nat) (rs : List (Response J)) (seen : List Nat) (r : Response J),
      r ∈ respFold j content rs seen starts →
        r ∈ rs ∨ ∃ st, parseExample j content st = some r := by
  intro starts
  induction starts with
  | nil => intro rs seen r h; exact Or.inl (by simpa [respFold] using h)
  | cons st rest ih =>
    intro rs seen r h
    cases hp : parseExample j content st with
    | none => simp only [respFold, hp] at h; exact ih rs seen r h
    | some r' =>
      simp only [respFold, hp] at h
      split at h
      · exact ih rs seen r h
      · cases ih _ _ r h with
        | inl hin =>
          rcases List.mem_append.mp hin with hin | hin
          · exact Or.inl hin
          · simp only [List.mem_singleton] at hin
            exact Or.inr ⟨st, hin ▸ hp⟩
        | inr hex => exact Or.inr hex

/-- C8: when the relaxed-JSON parser rejects every literal (modelled by the
constant-`none` parser), the document body and every example response body
are left absent, and the parser still returns a full document record. -/
theorem failed_literal_body_absent :
    ∀ (J : Type) (filePath content : Str),
      (parseBru (J := J) (fun _ => none) filePath content).body = none ∧
      ∀ rs, (parseBru (J := J) (fun _ => none) filePath content).responses = some rs →
        ∀ r ∈ rs, r.body = none := by
  intro J p content
  constructor
  · show (extractBlockContent (stripBlocks exName content) bodyJsonName).bind
      (fun _ => (none : Option J)) = none
    cases extractBlockContent (stripBlocks exName content) bodyJsonName <;> rfl
  · intro rs hrs r hr
    have hrs' : rs = collectResponses (J := J) (fun _ => none) content := by
      revert hrs
      show (if (collectResponses (J := J) (fun _ => none) content).isEmpty then none
          else some (collectResponses (J := J) (fun _ => none) content)) = some rs → _
      split
      · intro h; cases h
      · intro h; cases h; rfl
    subst hrs'
    rcases respFold_mem _ content _ [] [] r hr with hin | ⟨st, hst⟩
    · simp at hin
    · exact parseExample_const_none_body hst

/-- Witness for C8 at a concrete document whose example body literal fails
relaxed-JSON parsing: the document body and the 200-response body are absent. -/
theorem failed_literal_body_absent_witness :
    (parseBru (J := Unit) (fun _ => none) [] headersRegression).body = none ∧
    ({ statusCode := 200, body := none,
       headers := some [("a".toList, KvVal.number "1".toList)] } : Response Unit).body
      = none := by
  have hrs : (parseBru (J := Unit) (fun _ => none) [] headersRegression).responses
      = some [{ statusCode := 200, body := none,
                headers := some [("a".toList, KvVal.number "1".toList)] }] := by
    decide
  exact ⟨(failed_literal_body_absent Unit [] headersRegression).1,
    (failed_literal_body_absent Unit [] headersRegression).2 _ hrs _ (by decide)⟩

/-- C9: the document parser is total and never produces the null alternative
of its declared `BruFile | null` result type: for every input text it
returns a complete record (all failure modes only leave fields absent). -/
theorem parseBruFile_never_null :
    ∀ (J : Type) (j : Str → Option J) (filePath content : Str),
      ∃ d, parseBruFile j filePath content = some d :=
  fun _ j p c => ⟨parseBru j p c, rfl⟩

/-! ## C4: headers nested in an example block are not promoted -/

/-- C4: a `headers` block nested inside an `example` block does not become
the document-level `headers` field: on the regression document the parsed
headers are absent even though the example (with its nested headers) was
extracted, and in general the headers field can only be non-absent when a
headers block still occurs in the example-stripped text — i.e. when an
independent top-level headers block exists outside all example blocks. -/
theorem example_headers_stay_nested :
    ((parseBru (J := Unit) (fun _ => none) [] headersRegression).headers = none ∧
      (parseBru (J := Unit) (fun _ => none) [] headersRegression).responses.isSome = true) ∧
    ∀ (J : Type) (j : Str → Option J) (filePath content : Str),
      (parseBru j filePath content).headers ≠ none →
        findPatAux headersName (stripBlocks exName content) 0 ≠ none := by
  constructor
  · exact ⟨by decide, by decide⟩
  · intro J j p content h hfind
    apply h
    show (extractBlockContent (stripBlocks exName content) headersName).bind
      parseKvContent = none
    unfold extractBlockContent
    rw [hfind]
    rfl

/-- Witness for C4's general part: a document with a top-level `headers`
block has non-absent headers, so the contrapositive applies and exhibits the
surviving headers pattern in the stripped text. -/
theorem example_headers_stay_nested_witness :
    findPatAux headersName (stripBlocks exName headersTopLevel) 0 ≠ none :=
  example_headers_stay_nested.2 Unit (fun _ => none) [] headersTopLevel (by decide)

/-! ## Lemmas about the definitions mapping and reference resolution -/

theorem Defs.keys_subset_set (d : Defs) (k : String) (v : Sch) :
    d.keys ⊆ (d.set k v).keys := by
  induction d with
  | nil => simp [Defs.set, Defs.keys]
  | cons a rest ih =>
    obtain ⟨k', v'⟩ := a
    simp only [Defs.set]
    split
    · next he => simp [Defs.keys, he]
    · intro x hx
      simp only [Defs.keys, List.map_cons, List.mem_cons] at hx ⊢
      rcases hx with hx | hx
      · exact Or.inl hx
      · exact Or.inr (ih hx)

theorem Defs.mem_keys_set (d : Defs) (k : String) (v : Sch) : k ∈ (d.set k v).keys := by
  induction d with
  | nil => simp [Defs.set, Defs.keys]
  | cons a rest ih =>
    obtain ⟨k', v'⟩ := a
    simp only [Defs.set]
    split
    · simp [Defs.keys]
    · simp only [Defs.keys, List.map_cons, List.mem_cons]
      exact Or.inr ih

theorem Defs.mem_set (d : Defs) (k : String) (v : Sch) :
    ∀ kv ∈ d.set k v, kv = (k, v) ∨ kv ∈ d := by
  induction d with
  | nil => simp [Defs.set]
  | cons a rest ih =>
    obtain ⟨k', v'⟩ := a
    intro kv hkv
    simp only [Defs.set] at hkv
    split at hkv
    · rcases List.mem_cons.mp hkv with h | h
      · exact Or.inl h
      · exact Or.inr (List.mem_cons.mpr (Or.inr h))
    · rcases List.mem_cons.mp hkv with h | h
      · exact Or.inr (List.mem_cons.mpr (Or.inl h))
      · rcases ih kv h with h' | h'
        · exact Or.inl h'
        · exact Or.inr (List.mem_cons.mpr (Or.inr h'))

theorem Defs.lookup_isSome_of_mem_keys {d : Defs} {k : String} (h : k ∈ d.keys) :
    (d.lookup k).isSome := by
  induction d with
  | nil => simp [Defs.keys] at h
  | cons a rest ih =>
    obtain ⟨k', v'⟩ := a
    simp only [Defs.keys, List.map_cons, List.mem_cons] at h
    simp only [Defs.lookup]
    split
    · simp
    · next hne =>
      rcases h with h | h
      · exact absurd h.symm hne
      · exact ih h

theorem Defs.lookup_mem {d : Defs} {k : String} {v : Sch} (h : d.lookup k = some v) :
    (k, v) ∈ d := by
  induction d with
  | nil => simp [Defs.lookup] at h
  | cons a rest ih =>
    obtain ⟨k', v'⟩ := a
    simp only [Defs.lookup] at h
    split at h
    · next he => cases h; exact List.mem_cons.mpr (Or.inl (by rw [he]))
    · exact List.mem_cons.mpr (Or.inr (ih h))

theorem Defs.lookup_set_self (d : Defs) (k : String) (v : Sch) :
    (d.set k v).lookup k = some v := by
  induction d with
  | nil => simp [Defs.set, Defs.lookup]
  | cons a rest ih =>
    obtain ⟨k', v'⟩ := a
    simp only [Defs.set]
    split
    · simp [Defs.lookup]
    · next hne => simp only [Defs.lookup, if_neg hne]; exact ih

theorem resolvesIn_mono {s : Sch} {d d' : Defs} (h : resolvesIn s d)
    (hsub : d.keys ⊆ d'.keys) : resolvesIn s d' :=
  fun r hr => hsub (h r hr)

theorem propsResolve_mono {ps : Props} {d d' : Defs} (h : propsResolve ps d)
    (hsub : d.keys ⊆ d'.keys) : propsResolve ps d' :=
  fun r hr => hsub (h r hr)

theorem defsOk_set {d : Defs} {k : String} {v : Sch} (hd : defsOk d)
    (hv : resolvesIn v d) : defsOk (d.set k v) := by
  intro kv hkv
  rcases Defs.mem_set d k v kv hkv with rfl | hm
  · exact resolvesIn_mono hv (Defs.keys_subset_set d k v)
  · exact resolvesIn_mono (hd kv hm) (Defs.keys_subset_set d k v)

theorem refs_arr (item : Sch) : (Sch.arr item).refs = item.refs := rfl

theorem refs_obj (ps : Props) : (Sch.obj ps).refs = ps.refs := rfl

theorem resolvesIn_arr {item : Sch} {d : Defs} :
    resolvesIn (Sch.arr item) d ↔ resolvesIn item d := by
  unfold resolvesIn
  rw [refs_arr]

theorem resolvesIn_obj {ps : Props} {d : Defs} :
    resolvesIn (Sch.obj ps) d ↔ propsResolve ps d := by
  unfold resolvesIn propsResolve
  rw [refs_obj]

theorem resolvesIn_ref {r : String} {d : Defs} :
    resolvesIn (Sch.ref r) d ↔ r ∈ d.keys := by
  unfold resolvesIn
  simp [Sch.refs]

theorem resolvesIn_scalar (t : String) (d : Defs) : resolvesIn (Sch.scalar t) d := by
  intro r hr
  simp [Sch.refs] at hr

theorem propsResolve_nil (d : Defs) : propsResolve Props.nil d := by
  intro r hr
  simp [Props.refs] at hr

theorem propsResolve_cons {k : String} {p : Sch} {rest : Props} {d : Defs} :
    propsResolve (Props.cons k p rest) d ↔ resolvesIn p d ∧ propsResolve rest d := by
  unfold propsResolve resolvesIn
  simp [Props.refs, List.mem_append, or_imp, forall_and]

/-! ## Monotonicity: the definitions mapping only ever grows -/

theorem liftDef_keys_mono (rec : Sch → String → Defs → Sch × Defs)
    (hrec : ∀ s n d, Defs.keys d ⊆ Defs.keys (rec s n d).2) (nm : String) (v : Sch)
    (d : Defs) : d.keys ⊆ (liftDef rec nm v d).keys := by
  unfold liftDef
  intro x hx
  exact Defs.keys_subset_set _ _ _ (hrec _ _ _ (Defs.keys_subset_set _ _ _ hx))

theorem liftDef_mem (rec : Sch → String → Defs → Sch × Defs)
    (hrec : ∀ s n d, Defs.keys d ⊆ Defs.keys (rec s n d).2) (nm : String) (v : Sch)
    (d : Defs) : nm ∈ (liftDef rec nm v d).keys := by
  unfold liftDef
  exact Defs.keys_subset_set _ _ _ (hrec _ _ _ (Defs.mem_keys_set d nm v))

theorem stepWithB_keys_mono (rec : Sch → String → Defs → Sch × Defs)
    (hrec : ∀ s n d, Defs.keys d ⊆ Defs.keys (rec s n d).2) :
    ∀ (k : String) (p : Sch) (n : String) (d : Defs),
      d.keys ⊆ (stepWithB rec k p n d).2.keys := by
  intro k p n d
  cases p with
  | arr item =>
    cases item with
    | ref oldRef =>
      cases hl : Defs.lookup d oldRef with
      | none => simp only [stepWithB, hl]; exact fun x hx => hx
      | some dd => simp only [stepWithB, hl]; exact liftDef_keys_mono rec hrec _ _ _
    | arr it => simp only [stepWithB]; exact liftDef_keys_mono rec hrec _ _ _
    | obj ps => simp only [stepWithB]; exact liftDef_keys_mono rec hrec _ _ _
    | scalar t => simp only [stepWithB]; exact liftDef_keys_mono rec hrec _ _ _
  | obj ps => simp only [stepWithB]; exact liftDef_keys_mono rec hrec _ _ _
  | ref oldRef =>
    cases hl : Defs.lookup d oldRef with
    | none => simp only [stepWithB, hl]; exact fun x hx => hx
    | some dd =>
      by_cases he : oldRef = n ++ toPascalCase k
      · simp only [stepWithB, hl, if_pos he]; exact fun x hx => hx
      · simp only [stepWithB, hl, if_neg he]; exact liftDef_keys_mono rec hrec _ _ _
  | scalar t => exact fun x hx => hx

theorem propsGo_keys_mono (stepf : String → Sch → Defs → Sch × Defs)
    (hstep : ∀ k p d, Defs.keys d ⊆ Defs.keys (stepf k p d).2) :
    ∀ (ps : Props) (d : Defs), d.keys ⊆ (propsGo stepf ps d).2.keys
  | .nil, d => by
    simp [propsGo]
  | .cons k p rest, d => by
    simp only [propsGo]
    exact fun x hx => propsGo_keys_mono stepf hstep rest _ (hstep k p d hx)

theorem processObjectB_keys_mono :
    ∀ (fuel : Nat) (s : Sch) (n : String) (d : Defs),
      d.keys ⊆ (processObjectB fuel s n d).2.keys := by
  intro fuel
  induction fuel with
  | zero => intro s n d; simp [processObjectB]
  | succ f ih =>
    intro s n d
    cases s with
    | obj ps =>
      simp only [processObjectB]
      exact propsGo_keys_mono _ (fun k p d => stepWithB_keys_mono _ ih k p n d) ps d
    | ref r => simp [processObjectB]
    | arr item => simp [processObjectB]
    | scalar t => simp [processObjectB]

theorem stepWithA_keys_mono (rec : Sch → String → Defs → Sch × Defs)
    (hrec : ∀ s n d, Defs.keys d ⊆ Defs.keys (rec s n d).2) :
    ∀ (k : String) (p : Sch) (n : String) (d : Defs),
      d.keys ⊆ (stepWithA rec k p n d).2.keys := by
  intro k p n d
  cases p with
  | arr item =>
    have hset : ∀ d3 : Defs, d.keys ⊆ d3.keys →
        d.keys ⊆ (Defs.set d3 (n ++ toPascalCase k)
          (Sch.arr (Sch.ref (n ++ toPascalCase k ++ "Item")))).keys :=
      fun d3 h x hx => Defs.keys_subset_set _ _ _ (h hx)
    cases item with
    | ref oldRef =>
      cases hl : Defs.lookup d oldRef with
      | none => simp only [stepWithA, hl]; exact hset d (fun x hx => hx)
      | some dd => simp only [stepWithA, hl]; exact hset _ (liftDef_keys_mono rec hrec _ _ _)
    | arr it => simp only [stepWithA]; exact hset _ (liftDef_keys_mono rec hrec _ _ _)
    | obj ps => simp only [stepWithA]; exact hset _ (liftDef_keys_mono rec hrec _ _ _)
    | scalar t => simp only [stepWithA]; exact hset _ (liftDef_keys_mono rec hrec _ _ _)
  | obj ps => simp only [stepWithA]; exact hrec _ _ _
  | ref oldRef => exact fun x hx => hx
  | scalar t => exact fun x hx => hx

theorem processObjectA_keys_mono :
    ∀ (fuel : Nat) (s : Sch) (n : String) (d : Defs),
      d.keys ⊆ (processObjectA fuel s n d).2.keys := by
  intro fuel
  induction fuel with
  | zero => intro s n d; simp [processObjectA]
  | succ f ih =>
    intro s n d
    cases s with
    | obj ps =>
      simp only [processObjectA]
      exact propsGo_keys_mono _ (fun k p d => stepWithA_keys_mono _ ih k p n d) ps d
    | ref r => simp [processObjectA]
    | arr item => simp [processObjectA]
    | scalar t => simp [processObjectA]

/-! ## Preservation of reference resolution (for claim C3) -/

theorem liftDef_wf (rec : Sch → String → Defs → Sch × Defs)
    (hmono : ∀ s n d, Defs.keys d ⊆ Defs.keys (rec s n d).2)
    (hwf : ∀ s n d, resolvesIn s d → defsOk d →
      resolvesIn (rec s n d).1 (rec s n d).2 ∧ defsOk (rec s n d).2)
    (nm : String) (v : Sch) (d : Defs) (hv : resolvesIn v d) (hd : defsOk d) :
    nm ∈ (liftDef rec nm v d).keys ∧ defsOk (liftDef rec nm v d) := by
  unfold liftDef
  have h1 : defsOk (d.set nm v) := defsOk_set hd hv
  have h2 : resolvesIn v (d.set nm v) := resolvesIn_mono hv (Defs.keys_subset_set _ _ _)
  obtain ⟨hr1, hr2⟩ := hwf v nm (d.set nm v) h2 h1
  exact ⟨Defs.keys_subset_set _ _ _ (hmono _ _ _ (Defs.mem_keys_set d nm v)),
    defsOk_set hr2 hr1⟩

theorem stepWithB_wf (rec : Sch → String → Defs → Sch × Defs)
    (hmono : ∀ s n d, Defs.keys d ⊆ Defs.keys (rec s n d).2)
    (hwf : ∀ s n d, resolvesIn s d → defsOk d →
      resolvesIn (rec s n d).1 (rec s n d).2 ∧ defsOk (rec s n d).2) :
    ∀ (k : String) (p : Sch) (n : String) (d : Defs), resolvesIn p d → defsOk d →
      resolvesIn (stepWithB rec k p n d).1 (stepWithB rec k p n d).2 ∧
        defsOk (stepWithB rec k p n d).2 := by
  intro k p n d hp hd
  cases p with
  | scalar t => exact ⟨resolvesIn_scalar t d, hd⟩
  | obj ps =>
    simp only [stepWithB]
    obtain ⟨hm, hok⟩ := liftDef_wf rec hmono hwf (n ++ toPascalCase k) (Sch.obj ps) d hp hd
    exact ⟨resolvesIn_ref.mpr hm, hok⟩
  | ref oldRef =>
    have hk : oldRef ∈ d.keys := resolvesIn_ref.mp hp
    cases hl : Defs.lookup d oldRef with
    | none =>
      have := Defs.lookup_isSome_of_mem_keys hk
      rw [hl] at this
      simp at this
    | some dd =>
      have hdd : resolvesIn dd d := hd (oldRef, dd) (Defs.lookup_mem hl)
      by_cases he : oldRef = n ++ toPascalCase k
      · simp only [stepWithB, hl, if_pos he]
        exact ⟨hp, hd⟩
      · simp only [stepWithB, hl, if_neg he]
        obtain ⟨hm, hok⟩ := liftDef_wf rec hmono hwf (n ++ toPascalCase k) dd d hdd hd
        exact ⟨resolvesIn_ref.mpr hm, hok⟩
  | arr item =>
    have hitem : resolvesIn item d := resolvesIn_arr.mp hp
    cases item with
    | ref oldRef =>
      have hk : oldRef ∈ d.keys := resolvesIn_ref.mp hitem
      cases hl : Defs.lookup d oldRef with
      | none =>
        have := Defs.lookup_isSome_of_mem_keys hk
        rw [hl] at this
        simp at this
      | some dd =>
        have hdd : resolvesIn dd d := hd (oldRef, dd) (Defs.lookup_mem hl)
        simp only [stepWithB, hl]
        obtain ⟨hm, hok⟩ :=
          liftDef_wf rec hmono hwf (n ++ toPascalCase k ++ "Item") dd d hdd hd
        exact ⟨resolvesIn_arr.mpr (resolvesIn_ref.mpr hm), hok⟩
    | arr it =>
      simp only [stepWithB]
      obtain ⟨hm, hok⟩ :=
        liftDef_wf rec hmono hwf (n ++ toPascalCase k ++ "Item") (Sch.arr it) d hitem hd
      exact ⟨resolvesIn_arr.mpr (resolvesIn_ref.mpr hm), hok⟩
    | obj ps =>
      simp only [stepWithB]
      obtain ⟨hm, hok⟩ :=
        liftDef_wf rec hmono hwf (n ++ toPascalCase k ++ "Item") (Sch.obj ps) d hitem hd
      exact ⟨resolvesIn_arr.mpr (resolvesIn_ref.mpr hm), hok⟩
    | scalar t =>
      simp only [stepWithB]
      obtain ⟨hm, hok⟩ :=
        liftDef_wf rec hmono hwf (n ++ toPascalCase k ++ "Item") (Sch.scalar t) d hitem hd
      exact ⟨resolvesIn_arr.mpr (resolvesIn_ref.mpr hm), hok⟩

theorem propsGo_wf (stepf : String → Sch → Defs → Sch × Defs)
    (hm : ∀ k p d, Defs.keys d ⊆ Defs.keys (stepf k p d).2)
    (hw : ∀ k p d, resolvesIn p d → defsOk d →
      resolvesIn (stepf k p d).1 (stepf k p d).2 ∧ defsOk (stepf k p d).2) :
    ∀ (ps : Props) (d : Defs), propsResolve ps d → defsOk d →
      propsResolve (propsGo stepf ps d).1 (propsGo stepf ps d).2 ∧
        defsOk (propsGo stepf ps d).2
  | .nil, d => by
    intro _ hd
    exact ⟨propsResolve_nil d, hd⟩
  | .cons k p rest, d => by
    intro hp hd
    obtain ⟨hp1, hp2⟩ := propsResolve_cons.mp hp
    simp only [propsGo]
    obtain ⟨h1, h2⟩ := hw k p d hp1 hd
    have hp2' : propsResolve rest (stepf k p d).2 := propsResolve_mono hp2 (hm k p d)
    obtain ⟨h3, h4⟩ := propsGo_wf stepf hm hw rest _ hp2' h2
    refine ⟨propsResolve_cons.mpr ⟨?_, h3⟩, h4⟩
    exact resolvesIn_mono h1 (propsGo_keys_mono stepf hm rest _)

theorem processObjectB_wf :
    ∀ (fuel : Nat) (s : Sch) (n : String) (d : Defs), resolvesIn s d → defsOk d →
      resolvesIn (processObjectB fuel s n d).1 (processObjectB fuel s n d).2 ∧
        defsOk (processObjectB fuel s n d).2 := by
  intro fuel
  induction fuel with
  | zero => intro s n d hs hd; exact ⟨hs, hd⟩
  | succ f ih =>
    intro s n d hs hd
    cases s with
    | obj ps =>
      simp only [processObjectB]
      have h := propsGo_wf _
        (fun k p d => stepWithB_keys_mono _ (processObjectB_keys_mono f) k p n d)
        (fun k p d => stepWithB_wf _ (processObjectB_keys_mono f) (fun s n d => ih s n d) k p n d)
        ps d (resolvesIn_obj.mp hs) hd
      exact ⟨resolvesIn_obj.mpr h.1, h.2⟩
    | ref r => exact ⟨hs, hd⟩
    | arr item => exact ⟨hs, hd⟩
    | scalar t => exact ⟨hs, hd⟩

theorem stepWithA_wf (rec : Sch → String → Defs → Sch × Defs)
    (hmono : ∀ s n d, Defs.keys d ⊆ Defs.keys (rec s n d).2)
    (hwf : ∀ s n d, resolvesIn s d → defsOk d →
      resolvesIn (rec s n d).1 (rec s n d).2 ∧ defsOk (rec s n d).2) :
    ∀ (k : String) (p : Sch) (n : String) (d : Defs), resolvesIn p d → defsOk d →
      resolvesIn (stepWithA rec k p n d).1 (stepWithA rec k p n d).2 ∧
        defsOk (stepWithA rec k p n d).2 := by
  intro k p n d hp hd
  cases p with
  | scalar t => exact ⟨resolvesIn_scalar t d, hd⟩
  | ref oldRef => exact ⟨hp, hd⟩
  | obj ps =>
    simp only [stepWithA]
    exact hwf (Sch.obj ps) (n ++ toPascalCase k) d hp hd
  | arr item =>
    have hitem : resolvesIn item d := resolvesIn_arr.mp hp
    have harr : ∀ d3 : Defs,
        (n ++ toPascalCase k ++ "Item") ∈ d3.keys → defsOk d3 →
        resolvesIn (Sch.ref (n ++ toPascalCase k))
            (Defs.set d3 (n ++ toPascalCase k)
              (Sch.arr (Sch.ref (n ++ toPascalCase k ++ "Item")))) ∧
          defsOk (Defs.set d3 (n ++ toPascalCase k)
            (Sch.arr (Sch.ref (n ++ toPascalCase k ++ "Item")))) := by
      intro d3 hm3 hok3
      refine ⟨resolvesIn_ref.mpr (Defs.mem_keys_set d3 _ _), ?_⟩
      exact defsOk_set hok3 (resolvesIn_arr.mpr (resolvesIn_ref.mpr hm3))
    cases item with
    | ref oldRef =>
      have hk : oldRef ∈ d.keys := resolvesIn_ref.mp hitem
      cases hl : Defs.lookup d oldRef with
      | none =>
        have := Defs.lookup_isSome_of_mem_keys hk
        rw [hl] at this
        simp at this
      | some dd =>
        have hdd : resolvesIn dd d := hd (oldRef, dd) (Defs.lookup_mem hl)
        simp only [stepWithA, hl]
        obtain ⟨hm, hok⟩ :=
          liftDef_wf rec hmono hwf (n ++ toPascalCase k ++ "Item") dd d hdd hd
        exact harr _ hm hok
    | arr it =>
      simp only [stepWithA]
      obtain ⟨hm, hok⟩ :=
        liftDef_wf rec hmono hwf (n ++ toPascalCase k ++ "Item") (Sch.arr it) d hitem hd
      exact harr _ hm hok
    | obj ps =>
      simp only [stepWithA]
      obtain ⟨hm, hok⟩ :=
        liftDef_wf rec hmono hwf (n ++ toPascalCase k ++ "Item") (Sch.obj ps) d hitem hd
      exact harr _ hm hok
    | scalar t =>
      simp only [stepWithA]
      obtain ⟨hm, hok⟩ :=
        liftDef_wf rec hmono hwf (n ++ toPascalCase k ++ "Item") (Sch.scalar t) d hitem hd
      exact harr _ hm hok

theorem processObjectA_wf :
    ∀ (fuel : Nat) (s : Sch) (n : String) (d : Defs), resolvesIn s d → defsOk d →
      resolvesIn (processObjectA fuel s n d).1 (processObjectA fuel s n d).2 ∧
        defsOk (processObjectA fuel s n d).2 := by
  intro fuel
  induction fuel with
  | zero => intro s n d hs hd; exact ⟨hs, hd⟩
  | succ f ih =>
    intro s n d hs hd
    cases s with
    | obj ps =>
      simp only [processObjectA]
      have h := propsGo_wf _
        (fun k p d => stepWithA_keys_mono _ (processObjectA_keys_mono f) k p n d)
        (fun k p d => stepWithA_wf _ (processObjectA_keys_mono f) (fun s n d => ih s n d) k p n d)
        ps d (resolvesIn_obj.mp hs) hd
      exact ⟨resolvesIn_obj.mpr h.1, h.2⟩
    | ref r => exact ⟨hs, hd⟩
    | arr item => exact ⟨hs, hd⟩
    | scalar t => exact ⟨hs, hd⟩

/-- C3 as frozen is false: on a draft schema whose array item `$ref` names a
definition absent from the mapping, restructuring rewrites the property to
reference `RootAItem` without ever creating that definition, leaving a
dangling reference. -/
theorem restructure_dangling_ref_cex :
    ¬ resolvesIn
        (restructureArraysB 5
          (Sch.obj (Props.cons "a" (Sch.arr (Sch.ref "Missing")) Props.nil), []) "Root").1
        (restructureArraysB 5
          (Sch.obj (Props.cons "a" (Sch.arr (Sch.ref "Missing")) Props.nil), []) "Root").2 := by
  decide

/-- C3 (amended): after restructuring, every reference occurring in the
resulting schema — in the root or inside any definitions entry — resolves to
a key of the definitions mapping, provided every reference of the input
draft schema already resolved; this holds for both generator snapshots. -/
theorem restructure_no_dangling (fuel : Nat) (schema : Sch × Defs) (rootName : String)
    (h1 : resolvesIn schema.1 schema.2) (h2 : defsOk schema.2) :
    (resolvesIn (restructureArraysB fuel schema rootName).1
        (restructureArraysB fuel schema rootName).2 ∧
      defsOk (restructureArraysB fuel schema rootName).2) ∧
    (resolvesIn (restructureArraysA fuel schema rootName).1
        (restructureArraysA fuel schema rootName).2 ∧
      defsOk (restructureArraysA fuel schema rootName).2) :=
  ⟨processObjectB_wf fuel schema.1 rootName schema.2 h1 h2,
   processObjectA_wf fuel schema.1 rootName schema.2 h1 h2⟩

/-- Witness for the amended C3 on a concrete well-formed draft: a root whose
array item references an existing definition `X`. -/
theorem restructure_no_dangling_witness :
    (resolvesIn (Sch.obj (Props.cons "a" (Sch.arr (Sch.ref "X")) Props.nil))
        [("X", Sch.obj Props.nil)] ∧
      defsOk [("X", Sch.obj Props.nil)]) ∧
    (resolvesIn
        (restructureArraysB 5
          (Sch.obj (Props.cons "a" (Sch.arr (Sch.ref "X")) Props.nil),
            [("X", Sch.obj Props.nil)]) "Root").1
        (restructureArraysB 5
          (Sch.obj (Props.cons "a" (Sch.arr (Sch.ref "X")) Props.nil),
            [("X", Sch.obj Props.nil)]) "Root").2 ∧
      defsOk (restructureArraysB 5
        (Sch.obj (Props.cons "a" (Sch.arr (Sch.ref "X")) Props.nil),
          [("X", Sch.obj Props.nil)]) "Root").2) :=
  ⟨⟨by decide, by decide⟩,
   (restructure_no_dangling 5
      (Sch.obj (Props.cons "a" (Sch.arr (Sch.ref "X")) Props.nil),
        [("X", Sch.obj Props.nil)]) "Root" (by decide) (by decide)).1⟩

/-! ## C1: array lifting produces the path-qualified `…Item` definition -/

theorem stepWithB_arr_fst (rec : Sch → String → Defs → Sch × Defs) (k : String)
    (item : Sch) (n : String) (d : Defs) :
    (stepWithB rec k (Sch.arr item) n d).1
      = Sch.arr (Sch.ref (n ++ toPascalCase k ++ "Item")) := by
  cases item with
  | ref oldRef => cases hl : Defs.lookup d oldRef <;> simp [stepWithB, hl]
  | arr it => simp [stepWithB]
  | obj ps => simp [stepWithB]
  | scalar t => simp [stepWithB]

theorem stepWithB_arr_item_mem (rec : Sch → String → Defs → Sch × Defs)
    (hrec : ∀ s n d, Defs.keys d ⊆ Defs.keys (rec s n d).2) (k : String) (item : Sch)
    (n : String) (d : Defs) (hlift : ∀ r, item = Sch.ref r → r ∈ Defs.keys d) :
    (n ++ toPascalCase k ++ "Item") ∈ (stepWithB rec k (Sch.arr item) n d).2.keys := by
  cases item with
  | ref oldRef =>
    have hk : oldRef ∈ d.keys := hlift oldRef rfl
    cases hl : Defs.lookup d oldRef with
    | none =>
      have := Defs.lookup_isSome_of_mem_keys hk
      rw [hl] at this
      simp at this
    | some dd => simp only [stepWithB, hl]; exact liftDef_mem rec hrec _ _ _
  | arr it => simp only [stepWithB]; exact liftDef_mem rec hrec _ _ _
  | obj ps => simp only [stepWithB]; exact liftDef_mem rec hrec _ _ _
  | scalar t => simp only [stepWithB]; exact liftDef_mem rec hrec _ _ _

theorem stepWithA_arr_fst (rec : Sch → String → Defs → Sch × Defs) (k : String)
    (item : Sch) (n : String) (d : Defs) :
    (stepWithA rec k (Sch.arr item) n d).1 = Sch.ref (n ++ toPascalCase k) := by
  cases item with
  | ref oldRef => cases hl : Defs.lookup d oldRef <;> simp [stepWithA, hl]
  | arr it => simp [stepWithA]
  | obj ps => simp [stepWithA]
  | scalar t => simp [stepWithA]

theorem stepWithA_arr_lookup (rec : Sch → String → Defs → Sch × Defs) (k : String)
    (item : Sch) (n : String) (d : Defs) :
    (stepWithA rec k (Sch.arr item) n d).2.lookup (n ++ toPascalCase k)
      = some (Sch.arr (Sch.ref (n ++ toPascalCase k ++ "Item"))) := by
  cases item with
  | ref oldRef =>
    cases hl : Defs.lookup d oldRef <;>
      simp [stepWithA, hl, Defs.lookup_set_self]
  | arr it => simp [stepWithA, Defs.lookup_set_self]
  | obj ps => simp [stepWithA, Defs.lookup_set_self]
  | scalar t => simp [stepWithA, Defs.lookup_set_self]

theorem stepWithA_arr_mem (rec : Sch → String → Defs → Sch × Defs)
    (hrec : ∀ s n d, Defs.keys d ⊆ Defs.keys (rec s n d).2) (k : String) (item : Sch)
    (n : String) (d : Defs) (hlift : ∀ r, item = Sch.ref r → r ∈ Defs.keys d) :
    (n ++ toPascalCase k ++ "Item") ∈ (stepWithA rec k (Sch.arr item) n d).2.keys ∧
      (n ++ toPascalCase k) ∈ (stepWithA rec k (Sch.arr item) n d).2.keys := by
  cases item with
  | ref oldRef =>
    have hk : oldRef ∈ d.keys := hlift oldRef rfl
    cases hl : Defs.lookup d oldRef with
    | none =>
      have := Defs.lookup_isSome_of_mem_keys hk
      rw [hl] at this
      simp at this
    | some dd =>
      simp only [stepWithA, hl]
      exact ⟨Defs.keys_subset_set _ _ _ (liftDef_mem rec hrec _ _ _),
        Defs.mem_keys_set _ _ _⟩
  | arr it =>
    simp only [stepWithA]
    exact ⟨Defs.keys_subset_set _ _ _ (liftDef_mem rec hrec _ _ _),
      Defs.mem_keys_set _ _ _⟩
  | obj ps =>
    simp only [stepWithA]
    exact ⟨Defs.keys_subset_set _ _ _ (liftDef_mem rec hrec _ _ _),
      Defs.mem_keys_set _ _ _⟩
  | scalar t =>
    simp only [stepWithA]
    exact ⟨Defs.keys_subset_set _ _ _ (liftDef_mem rec hrec _ _ _),
      Defs.mem_keys_set _ _ _⟩

theorem propsGo_get? (stepf : String → Sch → Defs → Sch × Defs)
    (hm : ∀ k p d, Defs.keys d ⊆ Defs.keys (stepf k p d).2) :
    ∀ (ps : Props) (d : Defs) (i : Nat) (k : String) (p : Sch),
      ps.get? i = some (k, p) →
      ∃ d₁ : Defs, Defs.keys d ⊆ Defs.keys d₁ ∧
        (propsGo stepf ps d).1.get? i = some (k, (stepf k p d₁).1) ∧
        Defs.keys (stepf k p d₁).2 ⊆ Defs.keys (propsGo stepf ps d).2
  | .nil, d, i, k, p => by
    intro h
    simp [Props.get?] at h
  | .cons k0 p0 rest, d, 0, k, p => by
    intro h
    simp only [Props.get?, Option.some.injEq] at h
    cases h
    refine ⟨d, fun x hx => hx, ?_, ?_⟩
    · simp [propsGo, Props.get?]
    · simp only [propsGo]
      exact propsGo_keys_mono stepf hm rest _
  | .cons k0 p0 rest, d, i + 1, k, p => by
    intro h
    simp only [Props.get?] at h
    obtain ⟨d₁, hsub, hget, hkeys⟩ := propsGo_get? stepf hm rest (stepf k0 p0 d).2 i k p h
    refine ⟨d₁, fun x hx => hsub (hm k0 p0 d hx), ?_, ?_⟩
    · simp only [propsGo, Props.get?]
      exact hget
    · simp only [propsGo]
      exact hkeys

/-- C1: when `processObject` walks an object node under context `currentName`
and one of its properties holds an array, the property is rewritten to
reference `itemName = currentName ++ PascalCase(key) ++ "Item"` — directly in
snapshot B, via the intermediate array definition
`arrayName = currentName ++ PascalCase(key)` in snapshot A — and (whenever
the item schema is inline or a resolvable reference) a definitions entry
named `itemName` exists afterwards. -/
theorem restructure_array_item_naming :
    ∀ (fuel : Nat) (name : String) (defs : Defs) (ps : Props) (i : Nat) (k : String)
      (item : Sch),
      Props.get? ps i = some (k, Sch.arr item) →
      (∀ r, item = Sch.ref r → r ∈ Defs.keys defs) →
      (∃ ps' defs',
        processObjectB (fuel + 1) (Sch.obj ps) name defs = (Sch.obj ps', defs') ∧
        ps'.get? i = some (k, Sch.arr (Sch.ref (name ++ toPascalCase k ++ "Item"))) ∧
        (name ++ toPascalCase k ++ "Item") ∈ Defs.keys defs') ∧
      (∃ ps' defs',
        processObjectA (fuel + 1) (Sch.obj ps) name defs = (Sch.obj ps', defs') ∧
        ps'.get? i = some (k, Sch.ref (name ++ toPascalCase k)) ∧
        (name ++ toPascalCase k ++ "Item") ∈ Defs.keys defs' ∧
        (name ++ toPascalCase k) ∈ Defs.keys defs') ∧
      (stepA fuel k (Sch.arr item) name defs).2.lookup (name ++ toPascalCase k)
        = some (Sch.arr (Sch.ref (name ++ toPascalCase k ++ "Item"))) := by
  intro fuel name defs ps i k item hget hlift
  refine ⟨?_, ?_, stepWithA_arr_lookup _ k item name defs⟩
  · have hmB : ∀ k' p d, Defs.keys d ⊆
        Defs.keys ((fun k' p d => stepWithB (processObjectB fuel) k' p name d) k' p d).2 :=
      fun k' p d => stepWithB_keys_mono _ (processObjectB_keys_mono fuel) k' p name d
    obtain ⟨d₁, hsub, hget', hkeys⟩ := propsGo_get? _ hmB ps defs i k (Sch.arr item) hget
    refine ⟨_, _, rfl, ?_, ?_⟩
    · rw [hget', stepWithB_arr_fst]
    · exact hkeys (stepWithB_arr_item_mem _ (processObjectB_keys_mono fuel) k item name d₁
        (fun r hr => hsub (hlift r hr)))
  · have hmA : ∀ k' p d, Defs.keys d ⊆
        Defs.keys ((fun k' p d => stepWithA (processObjectA fuel) k' p name d) k' p d).2 :=
      fun k' p d => stepWithA_keys_mono _ (processObjectA_keys_mono fuel) k' p name d
    obtain ⟨d₁, hsub, hget', hkeys⟩ := propsGo_get? _ hmA ps defs i k (Sch.arr item) hget
    have hmem := stepWithA_arr_mem _ (processObjectA_keys_mono fuel) k item name d₁
      (fun r hr => hsub (hlift r hr))
    refine ⟨_, _, rfl, ?_, hkeys hmem.1, hkeys hmem.2⟩
    rw [hget', stepWithA_arr_fst]

/-- Witness for C1 at the scenario-2 draft: the `posts` property of the root
object, processed under base name `GetPostsBody`. -/
theorem restructure_array_item_naming_witness :
    (∃ ps' defs',
      processObjectB 4 (Sch.obj (Props.cons "posts"
          (Sch.arr (Sch.obj (Props.cons "id" (Sch.scalar "integer")
            (Props.cons "title" (Sch.scalar "string") Props.nil))))
          Props.nil)) "GetPostsBody" [] = (Sch.obj ps', defs') ∧
      ps'.get? 0 = some ("posts", Sch.arr (Sch.ref ("GetPostsBody" ++ toPascalCase "posts" ++ "Item"))) ∧
      ("GetPostsBody" ++ toPascalCase "posts" ++ "Item") ∈ Defs.keys defs') :=
  (restructure_array_item_naming 3 "GetPostsBody" []
    (Props.cons "posts"
      (Sch.arr (Sch.obj (Props.cons "id" (Sch.scalar "integer")
        (Props.cons "title" (Sch.scalar "string") Props.nil))))
      Props.nil)
    0 "posts"
    (Sch.obj (Props.cons "id" (Sch.scalar "integer")
      (Props.cons "title" (Sch.scalar "string") Props.nil)))
    (by rfl) (by intro r h; simp at h)).1

/-! ## C2: the scenario-2 payload yields item, array and root declarations -/

/-- C2: for the sample payload with one `posts` array of objects, the
src/generator.ts restructuring produces exactly the item definition, the
array definition wrapping it, and a root referencing the array — hence three
emitted schema declarations and three type aliases (already distinct, so
deduplication keeps all three). -/
theorem posts_payload_three_declarations :
    restructureArraysA 4 inferredPostsDraft "GetPostsBody"
        = (Sch.obj (Props.cons "posts" (Sch.ref "GetPostsBodyPosts") Props.nil),
           [("GetPostsBodyPostsItem",
             Sch.obj (Props.cons "id" (Sch.scalar "integer")
               (Props.cons "title" (Sch.scalar "string") Props.nil))),
            ("GetPostsBodyPosts", Sch.arr (Sch.ref "GetPostsBodyPostsItem"))]) ∧
    schemaDeclNames (restructureArraysA 4 inferredPostsDraft "GetPostsBody").2 "GetPostsBody"
        = ["getPostsBodyPostsItemSchema", "getPostsBodyPostsSchema", "getPostsBodySchema"] ∧
    typeAliasNames (restructureArraysA 4 inferredPostsDraft "GetPostsBody").2 "GetPostsBody"
        = ["GetPostsBodyPostsItem", "GetPostsBodyPosts", "GetPostsBody"] ∧
    (schemaDeclNames (restructureArraysA 4 inferredPostsDraft "GetPostsBody").2
        "GetPostsBody").length = 3 ∧
    (typeAliasNames (restructureArraysA 4 inferredPostsDraft "GetPostsBody").2
        "GetPostsBody").dedup
      = typeAliasNames (restructureArraysA 4 inferredPostsDraft "GetPostsBody").2
          "GetPostsBody" := by
  refine ⟨rfl, by decide, by decide, by decide, by decide⟩

end Brunzo
